import Mathlib

/-!
# Verification of the README-generator repository analysis pipeline

A shallow embedding of the core pipeline of the readme repository
(URL parsing, bounded tree crawling, file prioritization, snippet
extraction, code analysis fallback, progress events, provider-output
postprocessing), with theorems settling the frozen claims about it.

JavaScript strings are modelled as `String` / `List Char`; the regular
expressions of the source are translated into explicit scanning
functions with JS backtracking semantics; `Array.prototype.sort`
(stable since ES2019) is modelled by `List.mergeSort` with a
comparator that holds on ties.
-/

namespace Readme

/-- JS whitespace class `\s` (and `String.prototype.trim`), restricted to the
ASCII whitespace characters: space, tab, newline, carriage return,
vertical tab, form feed. -/
def isWsJS (c : Char) : Bool :=
  c = ' ' || c = '\t' || c = '\n' || c = '\r' || c = '\x0b' || c = '\x0c'

/-- JS `String.prototype.trim` on a character list. -/
def jsTrim (cs : List Char) : List Char :=
  ((cs.dropWhile isWsJS).reverse.dropWhile isWsJS).reverse

/-- JS `text.split('\n')` on a character list. -/
def splitNl : List Char → List (List Char)
  | [] => [[]]
  | c :: rest =>
    match splitNl rest with
    | [] => if c = '\n' then [[], []] else [[c]]
    | h :: t => if c = '\n' then [] :: h :: t else (c :: h) :: t

/-- JS `parts.join('\n')` on character lists. -/
def joinNl : List (List Char) → List Char
  | [] => []
  | [p] => p
  | p :: q :: rest => p ++ '\n' :: joinNl (q :: rest)

/-- JS `s.split('\n')` at `String` level. -/
def splitLines (s : String) : List String :=
  (splitNl s.data).map String.mk

/-- JS `lines.join('\n')` at `String` level. -/
def joinLines (ls : List String) : String :=
  String.mk (joinNl (ls.map String.data))

/-- JS `s.includes(pat)`: substring containment. -/
def strContains (s : List Char) (pat : List Char) : Bool :=
  match s with
  | [] => pat.isEmpty
  | _ :: rest => pat.isPrefixOf s || strContains rest pat

/-- Scan a string for any position whose suffix satisfies `p`
(the search-anywhere part of an unanchored JS regex). -/
def scanPos (p : List Char → Bool) : List Char → Bool
  | [] => false
  | c :: rest => p (c :: rest) || scanPos p rest

/-- JS word character class `\w` = `[A-Za-z0-9_]`. -/
def isWordChar (c : Char) : Bool :=
  c.isAlpha || c.isDigit || c = '_'

end Readme

namespace Readme

/-! ## Lemmas about the string utilities -/

theorem dropWhile_eq_self_of_none {p : Char → Bool} {l : List Char}
    (h : ∀ c ∈ l, p c = false) : l.dropWhile p = l := by
  cases l with
  | nil => rfl
  | cons c rest => simp [List.dropWhile_cons, h c (List.mem_cons_self c rest)]

theorem jsTrim_eq_self {cs : List Char} (h : ∀ c ∈ cs, isWsJS c = false) :
    jsTrim cs = cs := by
  unfold jsTrim
  rw [dropWhile_eq_self_of_none h, dropWhile_eq_self_of_none, List.reverse_reverse]
  intro c hc
  exact h c (List.mem_reverse.mp hc)

theorem splitNl_ne_nil (cs : List Char) : splitNl cs ≠ [] := by
  induction cs with
  | nil => simp [splitNl]
  | cons c rest ih =>
    unfold splitNl
    match hr : splitNl rest with
    | [] => exact absurd hr ih
    | h :: t => by_cases hc : c = '\n' <;> simp [hc]

theorem splitNl_no_newline (cs : List Char) : ∀ p ∈ splitNl cs, '\n' ∉ p := by
  induction cs with
  | nil => simp [splitNl]
  | cons c rest ih =>
    unfold splitNl
    match hr : splitNl rest with
    | [] => exact absurd hr (splitNl_ne_nil rest)
    | h :: t =>
      have ihh : '\n' ∉ h := ih h (hr ▸ List.mem_cons_self h t)
      have iht : ∀ p ∈ t, '\n' ∉ p := fun p hp => ih p (hr ▸ List.mem_cons_of_mem h hp)
      by_cases hc : c = '\n'
      · simp only [hc, if_pos rfl]
        intro p hp
        rcases List.mem_cons.mp hp with h1 | h2
        · simp [h1]
        · rcases List.mem_cons.mp h2 with h3 | h4
          · exact h3 ▸ ihh
          · exact iht p h4
      · simp only [if_neg hc]
        intro p hp
        rcases List.mem_cons.mp hp with h1 | h2
        · subst h1
          intro hmem
          rcases List.mem_cons.mp hmem with h3 | h4
          · exact hc h3.symm
          · exact ihh h4
        · exact iht p h2

theorem splitNl_of_no_newline {p : List Char} (h : '\n' ∉ p) : splitNl p = [p] := by
  induction p with
  | nil => simp [splitNl]
  | cons c rest ih =>
    have hc : c ≠ '\n' := fun hh => h (hh ▸ List.mem_cons_self c rest)
    have hrest : '\n' ∉ rest := fun hh => h (List.mem_cons_of_mem c hh)
    unfold splitNl
    rw [ih hrest]
    simp [hc]

theorem splitNl_cons (c : Char) (rest : List Char) :
    splitNl (c :: rest) =
      match splitNl rest with
      | [] => if c = '\n' then [[], []] else [[c]]
      | h :: t => if c = '\n' then [] :: h :: t else (c :: h) :: t := rfl

theorem splitNl_append_newline {p t : List Char} (h : '\n' ∉ p) :
    splitNl (p ++ '\n' :: t) = p :: splitNl t := by
  induction p with
  | nil =>
    rw [List.nil_append, splitNl_cons]
    match hr : splitNl t with
    | [] => exact absurd hr (splitNl_ne_nil t)
    | h :: t' => simp
  | cons c rest ih =>
    have hc : c ≠ '\n' := fun hh => h (hh ▸ List.mem_cons_self c rest)
    have hrest : '\n' ∉ rest := fun hh => h (List.mem_cons_of_mem c hh)
    have ihr := ih hrest
    rw [List.cons_append, splitNl_cons, ihr]
    simp [hc]

theorem splitNl_joinNl {parts : List (List Char)} (hne : parts ≠ [])
    (h : ∀ p ∈ parts, '\n' ∉ p) : splitNl (joinNl parts) = parts := by
  induction parts with
  | nil => exact absurd rfl hne
  | cons p rest ih =>
    match rest with
    | [] =>
      have := splitNl_of_no_newline (h p (List.mem_cons_self p []))
      simpa [joinNl] using this
    | q :: rest' =>
      have hp : '\n' ∉ p := h p (List.mem_cons_self _ _)
      have hrest : ∀ x ∈ q :: rest', '\n' ∉ x := fun x hx => h x (List.mem_cons_of_mem _ hx)
      have ihr := ih (by simp) hrest
      show splitNl (p ++ '\n' :: joinNl (q :: rest')) = _
      rw [splitNl_append_newline hp, ihr]

theorem splitLines_joinLines {ls : List String} (hne : ls ≠ [])
    (h : ∀ l ∈ ls, '\n' ∉ l.data) : splitLines (joinLines ls) = ls := by
  unfold splitLines joinLines
  rw [splitNl_joinNl (by simpa using hne)
    (by intro p hp; rcases List.mem_map.mp hp with ⟨l, hl, rfl⟩; exact h l hl)]
  rw [List.map_map]
  have : (String.mk ∘ String.data) = id := by
    funext s
    rfl
  rw [this, List.map_id]

end Readme

namespace Readme

/-! ## SnippetExtractor (`extractCodeSnippets`)

Translation of `extractCodeSnippets(code, filename, maxLines = 300)`.
The line-priority regexes are unanchored-or-anchored JS regexes over a
single line (which contains no newline); each is translated into an
explicit scanning function with the backtracking semantics of the JS
engine.  All patterns are tested against the trimmed line. -/

/-- Does the suffix start with keyword `kw` followed by one-or-more `\s`
and at least one `\w` character (the JS `kw\s+\w+` anchored pattern)? -/
def kwWsWord (kw : String) (s : List Char) : Bool :=
  kw.data.isPrefixOf s &&
    (let r := s.drop kw.length
     (r.head?.elim false isWsJS) && ((r.dropWhile isWsJS).head?.elim false isWordChar))

/-- The JS pattern `const\s+\w+\s*=.*=>` anchored at the start of the line. -/
def constArrowPat (s : List Char) : Bool :=
  "const".data.isPrefixOf s &&
    (let r := s.drop 5
     (r.head?.elim false isWsJS) &&
       (let r2 := r.dropWhile isWsJS
        (r2.head?.elim false isWordChar) &&
          (let r3 := (r2.dropWhile isWordChar).dropWhile isWsJS
           match r3 with
           | '=' :: rest => strContains rest "=>".data
           | _ => false)))

/-- Priority 15: `^(import|export|from|class\s+\w+|def\s+\w+|function\s+\w+|const\s+\w+\s*=.*=>|app\.|router\.|server\.)`. -/
def pri15 (t : List Char) : Bool :=
  "import".data.isPrefixOf t || "export".data.isPrefixOf t || "from".data.isPrefixOf t ||
  kwWsWord "class" t || kwWsWord "def" t || kwWsWord "function" t ||
  constArrowPat t ||
  "app.".data.isPrefixOf t || "router.".data.isPrefixOf t || "server.".data.isPrefixOf t

/-- Priority 12: `(\.get\(|\.post\(|\.put\(|\.delete\(|\.patch\(|\.use\(|\.listen\(|\.connect\(|mongoose\.|Schema\()`. -/
def pri12 (t : List Char) : Bool :=
  strContains t ".get(".data || strContains t ".post(".data || strContains t ".put(".data ||
  strContains t ".delete(".data || strContains t ".patch(".data || strContains t ".use(".data ||
  strContains t ".listen(".data || strContains t ".connect(".data ||
  strContains t "mongoose.".data || strContains t "Schema(".data

/-- A keyword followed anywhere in the line by `\s*` and then the character `c`. -/
def kwWsStarChar (kw : String) (c : Char) (t : List Char) : Bool :=
  scanPos (fun s =>
    kw.data.isPrefixOf s && ((s.drop kw.length).dropWhile isWsJS).head? = some c) t

/-- A keyword followed anywhere in the line by at least one `\s`. -/
def kwWsPlus (kw : String) (t : List Char) : Bool :=
  scanPos (fun s => kw.data.isPrefixOf s && (s.drop kw.length).head?.elim false isWsJS) t

/-- Priority 9: `(if\s*\(|for\s*\(|while\s*\(|try\s*\x7b|catch\s*\(|async\s+|await\s+|return\s+)`. -/
def pri9 (t : List Char) : Bool :=
  kwWsStarChar "if" '(' t || kwWsStarChar "for" '(' t || kwWsStarChar "while" '(' t ||
  kwWsStarChar "try" '\x7b' t || kwWsStarChar "catch" '(' t ||
  kwWsPlus "async" t || kwWsPlus "await" t || kwWsPlus "return" t

/-- Priority 7: `(const\s+|let\s+|var\s+|module\.exports|exports\.|require\()`. -/
def pri7 (t : List Char) : Bool :=
  kwWsPlus "const" t || kwWsPlus "let" t || kwWsPlus "var" t ||
  strContains t "module.exports".data || strContains t "exports.".data ||
  strContains t "require(".data

/-- The per-line priority heuristic of `extractCodeSnippets`. -/
def linePriority (line : String) : Nat :=
  let t := jsTrim line.data
  if t.isEmpty || "//".data.isPrefixOf t || "#".data.isPrefixOf t || "/*".data.isPrefixOf t then 1
  else if pri15 t then 15
  else if pri12 t then 12
  else if pri9 t then 9
  else if pri7 t then 7
  else if t.length > 0 then 5
  else 0

/-- One element of the `importantLines` working array:
`{ line, index, priority, original: line }`. -/
structure ScoredLine where
  line : String
  index : Nat
  priority : Nat
  original : String
  deriving DecidableEq, Repr

/-- The fixed set of config filenames that are head-truncated instead. -/
def snippetConfigNames : List String :=
  ["package.json", "requirements.txt", "Dockerfile", ".env.example", "docker-compose.yml"]

/-- The `importantLines` array:
`lines.map((line, index) => ({ line, index, priority, original: line }))`. -/
def importantLinesOf (lines : List String) : List ScoredLine :=
  lines.enum.map (fun p =>
    { line := p.2, index := p.1, priority := linePriority p.2, original := p.2 })

/-- The selection stage of `extractCodeSnippets`: stable sort by priority
descending, slice the first `maxLines`, stable sort back by original index. -/
def snippetSelect (lines : List String) (maxLines : Nat) : List ScoredLine :=
  (((importantLinesOf lines).mergeSort (fun a b => b.priority ≤ a.priority)).take
      maxLines).mergeSort (fun a b => a.index ≤ b.index)

/-- `extractCodeSnippets(code, filename, maxLines = 300)`: returns short
input verbatim; head-truncates known config files; otherwise scores every
line, stable-sorts by priority descending, keeps the first `maxLines`,
restores original order and joins. -/
def extractCodeSnippets (code : String) (filename : String) (maxLines : Nat := 300) : String :=
  if code = "" then ""
  else
    let lines := splitLines code
    if lines.length ≤ maxLines then code
    else if filename ∈ snippetConfigNames then
      joinLines (lines.take (min 150 lines.length))
    else
      joinLines ((snippetSelect lines maxLines).map (·.original))

end Readme

namespace Readme

/-! ## C1: SnippetExtractor bounds and order preservation -/

theorem snippetSelect_length {lines : List String} {maxLines : Nat}
    (h : maxLines ≤ lines.length) :
    (snippetSelect lines maxLines).length = maxLines := by
  simp [snippetSelect, importantLinesOf, Nat.min_eq_left h]

theorem snippetSelect_mem {lines : List String} {maxLines : Nat} {x : ScoredLine}
    (hx : x ∈ snippetSelect lines maxLines) : x ∈ importantLinesOf lines :=
  List.mem_mergeSort.mp (List.mem_of_mem_take (List.mem_mergeSort.mp hx))

theorem importantLinesOf_mem {lines : List String} {x : ScoredLine}
    (hx : x ∈ importantLinesOf lines) :
    x.index < lines.length ∧ lines.getD x.index "" = x.original ∧ x.original ∈ lines := by
  rcases List.mem_map.mp hx with ⟨p, hp, rfl⟩
  have hmem : (p.1, p.2) ∈ lines.enum := by simpa using hp
  have hget : lines[p.1]? = some p.2 := List.mk_mem_enum_iff_getElem?.mp hmem
  have hlt : p.1 < lines.length := by
    by_contra hge
    rw [List.getElem?_eq_none (by omega)] at hget
    exact Option.noConfusion hget
  refine ⟨hlt, ?_, ?_⟩
  · simp [List.getD, hget]
  · obtain ⟨h, he⟩ := List.getElem?_eq_some.mp hget
    exact he ▸ List.getElem_mem h

theorem snippetSelect_index_pairwise (lines : List String) (maxLines : Nat) :
    ((snippetSelect lines maxLines).map (·.index)).Pairwise (· < ·) := by
  have hle : (snippetSelect lines maxLines).Pairwise (fun a b => a.index ≤ b.index) := by
    have := @List.sorted_mergeSort ScoredLine
      (fun a b : ScoredLine => a.index ≤ b.index)
      (fun a b c hab hbc => by
        simp only [decide_eq_true_eq] at *
        omega)
      (fun a b => by simp [Nat.le_total])
      (((importantLinesOf lines).mergeSort (fun a b => b.priority ≤ a.priority)).take maxLines)
    exact this.imp (fun h => by simpa using h)
  have hne : (snippetSelect lines maxLines).Pairwise (fun a b => a.index ≠ b.index) := by
    have h0 : (importantLinesOf lines).Pairwise (fun a b => a.index ≠ b.index) := by
      rw [importantLinesOf, List.pairwise_map]
      have : (lines.enum.map Prod.fst).Nodup := by
        rw [List.enum_map_fst]
        exact List.nodup_range _
      rw [List.Nodup, List.pairwise_map] at this
      exact this
    have hsym : ∀ {a b : ScoredLine},
        (fun a b : ScoredLine => a.index ≠ b.index) a b → a.index ≠ b.index → True := by
      intro a b _ _; trivial
    have h1 := (((importantLinesOf lines).mergeSort_perm
      (fun a b => b.priority ≤ a.priority)).pairwise_iff
      (fun h => Ne.symm h)).mpr h0
    have h2 := h1.sublist (List.take_sublist maxLines _)
    exact ((List.mergeSort_perm _ (fun a b => a.index ≤ b.index)).pairwise_iff
      (fun h => Ne.symm h)).mpr h2
  rw [List.pairwise_map]
  exact (hle.and hne).imp (fun ⟨h1, h2⟩ => Nat.lt_of_le_of_ne h1 h2)

theorem splitLines_ne_nil (code : String) : splitLines code ≠ [] := by
  simp [splitLines, splitNl_ne_nil]

theorem splitLines_no_newline {code : String} {l : String} (hl : l ∈ splitLines code) :
    '\n' ∉ l.data := by
  rcases List.mem_map.mp hl with ⟨p, hp, rfl⟩
  exact splitNl_no_newline code.data p hp

/-- **C1** (SnippetExtractor, maxLines = 300): input with at most 300 lines
is returned verbatim; input with more than 300 lines and a non-config
filename yields exactly 300 lines, each one an input line, listed in
strictly ascending original-line order (selection by priority scoring,
stable descending sort, slice, re-sort by index). -/
theorem extractCodeSnippets_spec :
    (∀ code filename, (splitLines code).length ≤ 300 →
        extractCodeSnippets code filename 300 = code) ∧
    (∀ code filename, 300 < (splitLines code).length → filename ∉ snippetConfigNames →
        ∃ idxs : List Nat, idxs.length = 300 ∧ idxs.Pairwise (· < ·) ∧
          (∀ i ∈ idxs, i < (splitLines code).length) ∧
          splitLines (extractCodeSnippets code filename 300) =
            idxs.map (fun i => (splitLines code).getD i "")) := by
  constructor
  · intro code filename h
    by_cases hc : code = ""
    · subst hc; rfl
    · unfold extractCodeSnippets
      rw [if_neg hc, if_pos h]
  · intro code filename hlen hcfg
    have hc : code ≠ "" := by
      intro hh
      rw [hh] at hlen
      have : (splitLines "").length = 1 := rfl
      omega
    have hout : extractCodeSnippets code filename 300 =
        joinLines ((snippetSelect (splitLines code) 300).map (·.original)) := by
      unfold extractCodeSnippets
      rw [if_neg hc]
      simp only []
      rw [if_neg (by omega), if_neg hcfg]
    have hsellen : (snippetSelect (splitLines code) 300).length = 300 :=
      snippetSelect_length (by omega)
    refine ⟨(snippetSelect (splitLines code) 300).map (·.index), by simp [hsellen], ?_, ?_, ?_⟩
    · exact snippetSelect_index_pairwise _ _
    · intro i hi
      rcases List.mem_map.mp hi with ⟨x, hx, rfl⟩
      exact (importantLinesOf_mem (snippetSelect_mem hx)).1
    · rw [hout]
      have hjl : splitLines (joinLines ((snippetSelect (splitLines code) 300).map (·.original)))
          = (snippetSelect (splitLines code) 300).map (·.original) := by
        apply splitLines_joinLines
        · intro hnil
          have := congrArg List.length hnil
          rw [List.length_map, hsellen] at this
          exact absurd this (by simp)
        · intro l hl
          rcases List.mem_map.mp hl with ⟨x, hx, rfl⟩
          exact splitLines_no_newline (importantLinesOf_mem (snippetSelect_mem hx)).2.2
      rw [hjl]
      have : (snippetSelect (splitLines code) 300).map (·.original) =
          (snippetSelect (splitLines code) 300).map
            (fun x => (splitLines code).getD x.index "") :=
        List.map_congr_left (fun x hx =>
          (importantLinesOf_mem (snippetSelect_mem hx)).2.1.symm)
      rw [this, List.map_map]
      rfl

/-- A 301-line input used to exercise the over-limit branch of C1. -/
def demoLongCode : String := joinLines (List.replicate 301 "x")

theorem demoLongCode_lines : splitLines demoLongCode = List.replicate 301 "x" := by
  have h1 : (List.replicate 301 "x" : List String) ≠ [] := by
    intro h
    have := congrArg List.length h
    rw [List.length_replicate, List.length_nil] at this
    exact absurd this (by omega)
  apply splitLines_joinLines h1
  intro l hl
  rw [List.eq_of_mem_replicate hl]
  decide

/-- Witness for C1 at concrete inputs on both sides of the boundary. -/
theorem extractCodeSnippets_spec_witness :
    ((splitLines "a\nb").length ≤ 300 ∧ extractCodeSnippets "a\nb" "f.js" 300 = "a\nb") ∧
    (300 < (splitLines demoLongCode).length ∧ "demo.js" ∉ snippetConfigNames ∧
      ∃ idxs : List Nat, idxs.length = 300 ∧ idxs.Pairwise (· < ·) ∧
        (∀ i ∈ idxs, i < (splitLines demoLongCode).length) ∧
        splitLines (extractCodeSnippets demoLongCode "demo.js" 300) =
          idxs.map (fun i => (splitLines demoLongCode).getD i "")) := by
  have hlong : 300 < (splitLines demoLongCode).length := by
    rw [demoLongCode_lines, List.length_replicate]
    omega
  exact ⟨⟨by decide, extractCodeSnippets_spec.1 "a\nb" "f.js" (by decide)⟩,
    hlong, by decide, extractCodeSnippets_spec.2 demoLongCode "demo.js" hlong (by decide)⟩

end Readme

namespace Readme

/-! ## UrlParser (`parseGitHubUrl`, both variants)

The part_001 variant applies the single unanchored regex
`github\.com\/([^\/]+)\/([^\/]+?)(?:\.git)?(?:\/.*)?$` to the trimmed
input; the server.js variant additionally tries the anchored bare
pattern `^([^\/\s]+)\/([^\/\s]+)$`.  The regexes are translated into
scanning functions with JS leftmost-match and lazy/greedy backtracking
semantics. -/

structure RepoRef where
  owner : String
  repo : String
  deriving DecidableEq, Repr

/-- The literal part `github\.com\/` of the URL pattern. -/
def ghMarker : List Char := "github.com/".data

/-- Can `t` be consumed by `(?:\.git)?(?:\/.*)?$` directly after the lazy
repo capture? -/
def repoTailOk (t : List Char) : Bool :=
  t.isEmpty || t.head? = some '/' || t = ".git".data || ".git/".data.isPrefixOf t

/-- The lazy capture `([^\/]+?)` before `(?:\.git)?(?:\/.*)?$`: the shortest
nonempty slash-free prefix whose remainder is consumable. -/
def repoScan : List Char → Option (List Char)
  | [] => none
  | c :: rest =>
    if c = '/' then none
    else if repoTailOk rest then some [c]
    else (repoScan rest).map (c :: ·)

/-- Matching `([^\/]+)\/([^\/]+?)(?:\.git)?(?:\/.*)?$` against the text that
follows an occurrence of `github.com/`. -/
def ownerRepoScan (rest : List Char) : Option (List Char × List Char) :=
  match rest.dropWhile (· ≠ '/') with
  | '/' :: rem =>
    if (rest.takeWhile (· ≠ '/')).isEmpty then none
    else (repoScan rem).map (fun r => (rest.takeWhile (· ≠ '/'), r))
  | _ => none

/-- Leftmost unanchored search for the URL pattern: try every position; at a
position where `github.com/` matches but the rest of the pattern does not,
resume the search one character further (JS regex engine semantics). -/
def parseCore : List Char → Option (List Char × List Char)
  | [] => none
  | c :: rest =>
    if ghMarker.isPrefixOf (c :: rest) then
      match ownerRepoScan ((c :: rest).drop ghMarker.length) with
      | some r => some r
      | none => parseCore rest
    else parseCore rest

/-- `parseGitHubUrl` of src/unnamed/part_001 (the analyzed server variant). -/
def parseGitHubUrl (url : String) : Option RepoRef :=
  (parseCore (jsTrim url.data)).map (fun p => ⟨String.mk p.1, String.mk p.2⟩)

/-- The anchored bare-shorthand pattern `^([^\/\s]+)\/([^\/\s]+)$` of the
src/backend/api/server.js variant. -/
def bareScan (cs : List Char) : Option (List Char × List Char) :=
  match cs.dropWhile (fun c => c != '/' && !isWsJS c) with
  | '/' :: rest =>
    if !(cs.takeWhile (fun c => c != '/' && !isWsJS c)).isEmpty && !rest.isEmpty &&
        rest.all (fun c => c != '/' && !isWsJS c) then
      some (cs.takeWhile (fun c => c != '/' && !isWsJS c), rest)
    else none
  | _ => none

/-- `parseGitHubUrl` of src/backend/api/server.js: the URL pattern is tried
first, then the bare `owner/repo` pattern. -/
def parseGitHubUrlServer (url : String) : Option RepoRef :=
  match parseCore (jsTrim url.data) with
  | some p => some ⟨String.mk p.1, String.mk p.2⟩
  | none => (bareScan (jsTrim url.data)).map (fun p => ⟨String.mk p.1, String.mk p.2⟩)

end Readme

namespace Readme

/-! ### Helper lemmas for the parser proofs -/

theorem isPrefixOf_exists_append {p cs : List Char} (h : p.isPrefixOf cs = true) :
    ∃ t, cs = p ++ t := by
  induction p generalizing cs with
  | nil => exact ⟨cs, rfl⟩
  | cons a as ih =>
    match cs with
    | [] => exact absurd h (by simp)
    | b :: bs =>
      rw [List.isPrefixOf_cons₂, Bool.and_eq_true, beq_iff_eq] at h
      obtain ⟨rfl, h2⟩ := h
      obtain ⟨t, rfl⟩ := ih h2
      exact ⟨t, rfl⟩

theorem isPrefixOf_append_self (p t : List Char) : p.isPrefixOf (p ++ t) = true := by
  induction p with
  | nil => simp
  | cons a as ih => rw [List.cons_append, List.isPrefixOf_cons₂, ih]; simp

theorem takeWhile_append_all {p : Char → Bool} {l : List Char} {a : Char} {t : List Char}
    (hl : ∀ c ∈ l, p c = true) (ha : p a = false) :
    List.takeWhile p (l ++ a :: t) = l := by
  induction l with
  | nil => simp [List.takeWhile_cons, ha]
  | cons c cs ih =>
    rw [List.cons_append, List.takeWhile_cons, hl c (List.mem_cons_self c cs)]
    rw [ih (fun x hx => hl x (List.mem_cons_of_mem c hx))]
    simp

theorem dropWhile_append_all {p : Char → Bool} {l : List Char} {a : Char} {t : List Char}
    (hl : ∀ c ∈ l, p c = true) (ha : p a = false) :
    List.dropWhile p (l ++ a :: t) = a :: t := by
  induction l with
  | nil => simp [List.dropWhile_cons, ha]
  | cons c cs ih =>
    rw [List.cons_append, List.dropWhile_cons, hl c (List.mem_cons_self c cs)]
    simpa using ih (fun x hx => hl x (List.mem_cons_of_mem c hx))

end Readme

namespace Readme

theorem strContains_cons {c : Char} {rest pat : List Char} :
    strContains (c :: rest) pat = (pat.isPrefixOf (c :: rest) || strContains rest pat) := rfl

/-- If `.git` occurs nowhere in the nonempty slash-free segment `srest` and
the decoration `dec` starts (if at all) with `/` or `.`, then `.git` is not
a prefix of `srest ++ dec`. -/
theorem not_git_span {srest dec : List Char} (hne : srest ≠ [])
    (hs : strContains srest ".git".data = false)
    (hdec : dec = [] ∨ dec.head? = some '/' ∨ dec.head? = some '.') :
    ".git".data.isPrefixOf (srest ++ dec) = false := by
  have hdech : ∀ (x : Char) (xs : List Char), dec = x :: xs → x = '/' ∨ x = '.' := by
    intro x xs hx
    rcases hdec with h | h | h
    · rw [hx] at h; exact absurd h (by simp)
    · rw [hx] at h; exact Or.inl (by simpa using h)
    · rw [hx] at h; exact Or.inr (by simpa using h)
  by_contra hgp
  rw [Bool.not_eq_false] at hgp
  obtain ⟨t, ht⟩ := isPrefixOf_exists_append hgp
  match srest with
  | [] => exact hne rfl
  | [a] =>
    simp only [List.cons_append, List.nil_append, List.cons.injEq] at ht
    obtain ⟨rfl, hd⟩ := ht
    rcases hdech 'g' _ hd with h | h <;> exact absurd h (by decide)
  | [a, b] =>
    simp only [List.cons_append, List.nil_append, List.cons.injEq] at ht
    obtain ⟨rfl, rfl, hd⟩ := ht
    rcases hdech 'i' _ hd with h | h <;> exact absurd h (by decide)
  | [a, b, c] =>
    simp only [List.cons_append, List.nil_append, List.cons.injEq] at ht
    obtain ⟨rfl, rfl, rfl, hd⟩ := ht
    rcases hdech 't' _ hd with h | h <;> exact absurd h (by decide)
  | a :: b :: c :: d :: rest2 =>
    simp only [List.cons_append, List.cons.injEq] at ht
    obtain ⟨rfl, rfl, rfl, rfl, _⟩ := ht
    rw [strContains_cons] at hs
    have : (".git".data.isPrefixOf ('.' :: 'g' :: 'i' :: 't' :: rest2)) = false :=
      (Bool.or_eq_false_iff.mp hs).1
    simp [List.isPrefixOf_cons₂, isPrefixOf_append_self] at this

theorem isPrefixOf_of_git_slash {l : List Char} (h : ".git/".data.isPrefixOf l = true) :
    ".git".data.isPrefixOf l = true := by
  obtain ⟨t, rfl⟩ := isPrefixOf_exists_append h
  rw [show ".git/".data ++ t = ".git".data ++ ('/' :: t) from rfl]
  exact isPrefixOf_append_self _ _

theorem repoTailOk_false {srest dec : List Char} (hne : srest ≠ [])
    (hslash : ∀ c ∈ srest, ¬ c = '/')
    (hs : strContains srest ".git".data = false)
    (hdec : dec = [] ∨ dec.head? = some '/' ∨ dec.head? = some '.') :
    repoTailOk (srest ++ dec) = false := by
  have hp := not_git_span hne hs hdec
  match srest with
  | [] => exact absurd rfl hne
  | c :: srest' =>
    have hc : ¬ c = '/' := hslash c (List.mem_cons_self c srest')
    simp only [List.cons_append] at hp ⊢
    unfold repoTailOk
    rw [Bool.or_eq_false_iff, Bool.or_eq_false_iff, Bool.or_eq_false_iff]
    refine ⟨⟨⟨rfl, ?_⟩, ?_⟩, ?_⟩
    · simp [hc]
    · simp only [decide_eq_false_iff_not]
      intro hh
      rw [hh] at hp
      exact absurd hp (by decide)
    · by_contra h4
      rw [Bool.not_eq_false] at h4
      rw [isPrefixOf_of_git_slash h4] at hp
      exact Bool.noConfusion hp

theorem repoScan_append {repo dec : List Char} (hne : repo ≠ [])
    (hslash : ∀ c ∈ repo, ¬ c = '/')
    (hgit : strContains repo ".git".data = false)
    (hdec1 : repoTailOk dec = true)
    (hdec2 : dec = [] ∨ dec.head? = some '/' ∨ dec.head? = some '.') :
    repoScan (repo ++ dec) = some repo := by
  induction repo with
  | nil => exact absurd rfl hne
  | cons c rest ih =>
    have hc : ¬ c = '/' := hslash c (List.mem_cons_self c rest)
    match rest with
    | [] =>
      show repoScan (c :: dec) = some [c]
      unfold repoScan
      rw [if_neg hc, if_pos hdec1]
    | d :: rest' =>
      have hrests : ∀ x ∈ d :: rest', ¬ x = '/' :=
        fun x hx => hslash x (List.mem_cons_of_mem c hx)
      have hrestg : strContains (d :: rest') ".git".data = false := by
        rw [strContains_cons] at hgit
        exact (Bool.or_eq_false_iff.mp hgit).2
      have hko : repoTailOk ((d :: rest') ++ dec) = false :=
        repoTailOk_false (by simp) hrests hrestg hdec2
      show repoScan (c :: ((d :: rest') ++ dec)) = some (c :: d :: rest')
      unfold repoScan
      rw [if_neg hc, hko]
      simp only [Bool.false_eq_true, if_false]
      rw [ih (by simp) hrests hrestg]
      rfl

theorem ownerRepoScan_append {owner repo dec : List Char}
    (ho1 : owner ≠ []) (ho2 : ∀ c ∈ owner, ¬ c = '/')
    (hr1 : repo ≠ []) (hr2 : ∀ c ∈ repo, ¬ c = '/')
    (hr3 : strContains repo ".git".data = false)
    (hdec1 : repoTailOk dec = true)
    (hdec2 : dec = [] ∨ dec.head? = some '/' ∨ dec.head? = some '.') :
    ownerRepoScan (owner ++ '/' :: (repo ++ dec)) = some (owner, repo) := by
  have htw : (owner ++ '/' :: (repo ++ dec)).takeWhile (· ≠ '/') = owner :=
    takeWhile_append_all (fun c hc => by simp [ho2 c hc]) (by simp)
  have hdw : (owner ++ '/' :: (repo ++ dec)).dropWhile (· ≠ '/') = '/' :: (repo ++ dec) :=
    dropWhile_append_all (fun c hc => by simp [ho2 c hc]) (by simp)
  unfold ownerRepoScan
  rw [hdw]
  simp only [htw]
  rw [if_neg (by simpa using ho1)]
  rw [repoScan_append hr1 hr2 hr3 hdec1 hdec2]
  rfl

theorem parseCore_cons (c : Char) (rest : List Char) :
    parseCore (c :: rest) =
      if ghMarker.isPrefixOf (c :: rest) then
        match ownerRepoScan ((c :: rest).drop ghMarker.length) with
        | some r => some r
        | none => parseCore rest
      else parseCore rest := rfl

theorem parseCore_cons_ne_g {c : Char} {rest : List Char} (h : ¬ c = 'g') :
    parseCore (c :: rest) = parseCore rest := by
  rw [parseCore_cons, if_neg]
  intro hp
  rw [show ghMarker = 'g' :: "ithub.com/".data from rfl, List.isPrefixOf_cons₂,
    Bool.and_eq_true, beq_iff_eq] at hp
  exact h hp.1.symm

theorem parseCore_append_no_g {pre rest : List Char} (h : ∀ c ∈ pre, ¬ c = 'g') :
    parseCore (pre ++ rest) = parseCore rest := by
  induction pre with
  | nil => rfl
  | cons c cs ih =>
    rw [List.cons_append, parseCore_cons_ne_g (h c (List.mem_cons_self c cs))]
    exact ih (fun x hx => h x (List.mem_cons_of_mem c hx))

theorem parseCore_marker_some {tail : List Char} {r : List Char × List Char}
    (h : ownerRepoScan tail = some r) :
    parseCore (ghMarker ++ tail) = some r := by
  rw [show ghMarker ++ tail = 'g' :: ("ithub.com/".data ++ tail) from rfl, parseCore_cons]
  rw [show ('g' :: ("ithub.com/".data ++ tail)) = ghMarker ++ tail from rfl]
  rw [isPrefixOf_append_self]
  simp only [if_true]
  rw [show (ghMarker ++ tail).drop ghMarker.length = tail from List.drop_left _ _, h]

end Readme

namespace Readme

theorem ownerRepoScan_some_slash {t : List Char} {r : List Char × List Char}
    (h : ownerRepoScan t = some r) : '/' ∈ t := by
  unfold ownerRepoScan at h
  rcases hsplit : t.dropWhile (· ≠ '/') with _ | ⟨c, rem⟩
  · rw [hsplit] at h
    exact absurd h (by simp)
  · rw [hsplit] at h
    by_cases hc : c = '/'
    · subst hc
      have hmem : '/' ∈ t.dropWhile (· ≠ '/') := by
        rw [hsplit]
        exact List.mem_cons_self _ _
      exact (List.dropWhile_sublist _).subset hmem
    · exact absurd h (by simp [hc])

theorem parseCore_some_two_slashes {cs : List Char} {r : List Char × List Char}
    (h : parseCore cs = some r) : 2 ≤ cs.count '/' := by
  induction cs with
  | nil => exact absurd h (by simp [parseCore])
  | cons c rest ih =>
    rw [parseCore_cons] at h
    by_cases hpf : ghMarker.isPrefixOf (c :: rest) = true
    · rw [if_pos hpf] at h
      rcases hscan : ownerRepoScan ((c :: rest).drop ghMarker.length) with _ | r'
      · rw [hscan] at h
        have := ih h
        rw [List.count_cons]
        omega
      · obtain ⟨t, ht⟩ := isPrefixOf_exists_append hpf
        have hdt : (c :: rest).drop ghMarker.length = t := by
          rw [ht]
          exact List.drop_left _ _
        rw [hdt] at hscan
        have hslash : '/' ∈ t := ownerRepoScan_some_slash hscan
        have h1 : 0 < t.count '/' := List.count_pos_iff.mpr hslash
        have h2 : ghMarker.count '/' = 1 := by decide
        rw [ht, List.count_append, h2]
        omega
    · rw [if_neg hpf] at h
      have := ih h
      rw [List.count_cons]
      omega

theorem bareScan_append {owner repo : List Char}
    (ho1 : owner ≠ []) (ho2 : ∀ c ∈ owner, ¬ c = '/' ∧ isWsJS c = false)
    (hr1 : repo ≠ []) (hr2 : ∀ c ∈ repo, ¬ c = '/' ∧ isWsJS c = false) :
    bareScan (owner ++ '/' :: repo) = some (owner, repo) := by
  have hp : ∀ c ∈ owner, (fun c => c != '/' && !isWsJS c) c = true := by
    intro c hc
    have := ho2 c hc
    simp [this.1, this.2]
  have htw : (owner ++ '/' :: repo).takeWhile (fun c => c != '/' && !isWsJS c) = owner :=
    takeWhile_append_all hp (by simp)
  have hdw : (owner ++ '/' :: repo).dropWhile (fun c => c != '/' && !isWsJS c) = '/' :: repo :=
    dropWhile_append_all hp (by simp)
  unfold bareScan
  rw [hdw]
  simp only [htw]
  have hco : (!owner.isEmpty && !repo.isEmpty &&
      repo.all (fun c => c != '/' && !isWsJS c)) = true := by
    rw [Bool.and_eq_true, Bool.and_eq_true]
    refine ⟨⟨?_, ?_⟩, ?_⟩
    · simpa using ho1
    · simpa using hr1
    · rw [List.all_eq_true]
      intro c hc
      have := hr2 c hc
      simp [this.1, this.2]
  simp [hco]

theorem bareScan_some_no_ws {cs : List Char} {r : List Char × List Char}
    (h : bareScan cs = some r) : ∀ c ∈ cs, isWsJS c = false := by
  unfold bareScan at h
  rcases hsplit : cs.dropWhile (fun c => c != '/' && !isWsJS c) with _ | ⟨c, rem⟩
  · rw [hsplit] at h
    exact absurd h (by simp)
  · rw [hsplit] at h
    by_cases hc : c = '/'
    · subst hc
      by_cases hcond : (!(cs.takeWhile (fun c => c != '/' && !isWsJS c)).isEmpty && !rem.isEmpty &&
          rem.all (fun c => c != '/' && !isWsJS c)) = true
      · have hall : rem.all (fun c => c != '/' && !isWsJS c) = true := by
          rw [Bool.and_eq_true, Bool.and_eq_true] at hcond
          exact hcond.2
        intro x hx
        have hsplit2 : cs = cs.takeWhile (fun c => c != '/' && !isWsJS c) ++ '/' :: rem := by
          conv_lhs => rw [← List.takeWhile_append_dropWhile
            (fun c => c != '/' && !isWsJS c) cs]
          rw [hsplit]
        rw [hsplit2] at hx
        rcases List.mem_append.mp hx with h1 | h2
        · have := List.mem_takeWhile_imp h1
          rw [Bool.and_eq_true] at this
          simpa using this.2
        · rcases List.mem_cons.mp h2 with h3 | h4
          · subst h3
            rfl
          · have := (List.all_eq_true.mp hall) x h4
            rw [Bool.and_eq_true] at this
            simpa using this.2
      · exact absurd h (by simp [hcond])
    · exact absurd h (by simp [hc])

theorem bareScan_some_slash {cs : List Char} {r : List Char × List Char}
    (h : bareScan cs = some r) : '/' ∈ cs := by
  unfold bareScan at h
  rcases hsplit : cs.dropWhile (fun c => c != '/' && !isWsJS c) with _ | ⟨c, rem⟩
  · rw [hsplit] at h
    exact absurd h (by simp)
  · rw [hsplit] at h
    by_cases hc : c = '/'
    · subst hc
      have hmem : '/' ∈ cs.dropWhile (fun c => c != '/' && !isWsJS c) := by
        rw [hsplit]
        exact List.mem_cons_self _ _
      exact (List.dropWhile_sublist _).subset hmem
    · exact absurd h (by simp [hc])

end Readme

namespace Readme

/-! ### C6 / C7: UrlParser claims -/

/-- The decorations after the repo segment that the claim quantifies over:
nothing, a trailing slash plus extra path segments, a `.git` suffix, or
`.git` followed by a slash and extra path segments (whitespace-free so
that trimming is the identity). -/
def decorationOk (dec : List Char) : Prop :=
  dec = [] ∨ (∃ t, dec = '/' :: t ∧ ∀ c ∈ t, isWsJS c = false) ∨
  dec = ".git".data ∨ (∃ t, dec = ".git/".data ++ t ∧ ∀ c ∈ t, isWsJS c = false)

theorem decorationOk_no_ws {dec : List Char} (h : decorationOk dec) :
    ∀ c ∈ dec, isWsJS c = false := by
  rcases h with rfl | ⟨t, rfl, ht⟩ | rfl | ⟨t, rfl, ht⟩
  · simp
  · intro c hc
    rcases List.mem_cons.mp hc with rfl | h2
    · rfl
    · exact ht c h2
  · decide
  · intro c hc
    rcases List.mem_append.mp hc with h1 | h2
    · have hg : ∀ x ∈ ".git/".data, isWsJS x = false := by decide
      exact hg c h1
    · exact ht c h2

theorem decorationOk_tailOk {dec : List Char} (h : decorationOk dec) :
    repoTailOk dec = true := by
  rcases h with rfl | ⟨t, rfl, _⟩ | rfl | ⟨t, rfl, _⟩
  · rfl
  · simp [repoTailOk]
  · decide
  · unfold repoTailOk
    rw [isPrefixOf_append_self]
    simp

theorem decorationOk_head {dec : List Char} (h : decorationOk dec) :
    dec = [] ∨ dec.head? = some '/' ∨ dec.head? = some '.' := by
  rcases h with rfl | ⟨t, rfl, _⟩ | rfl | ⟨t, rfl, _⟩
  · exact Or.inl rfl
  · exact Or.inr (Or.inl rfl)
  · exact Or.inr (Or.inr rfl)
  · exact Or.inr (Or.inr rfl)

end Readme

namespace Readme

/-- **C6 (amended)**: every full/partial GitHub URL form
`pre ++ github.com/owner/repo ++ decoration` — protocol prefix without
`g` or whitespace, decoration a trailing slash, extra path segments or a
`.git` suffix — yields the same `{owner, repo}` in both parser variants;
the bare `owner/repo` shorthand however yields `null` in the part_001
variant and `{owner, repo}` in the server.js variant. -/
theorem parseGitHubUrl_amended :
    (∀ (pre owner repo : String) (dec : List Char),
      (∀ c ∈ pre.data, ¬ c = 'g' ∧ isWsJS c = false) →
      owner.data ≠ [] → (∀ c ∈ owner.data, ¬ c = '/' ∧ isWsJS c = false) →
      repo.data ≠ [] → (∀ c ∈ repo.data, ¬ c = '/' ∧ isWsJS c = false) →
      strContains repo.data ".git".data = false →
      decorationOk dec →
      parseGitHubUrl (pre ++ "github.com/" ++ owner ++ "/" ++ repo ++ String.mk dec) =
          some ⟨owner, repo⟩ ∧
      parseGitHubUrlServer (pre ++ "github.com/" ++ owner ++ "/" ++ repo ++ String.mk dec) =
          some ⟨owner, repo⟩) ∧
    (∀ owner repo : String,
      owner.data ≠ [] → (∀ c ∈ owner.data, ¬ c = '/' ∧ isWsJS c = false) →
      repo.data ≠ [] → (∀ c ∈ repo.data, ¬ c = '/' ∧ isWsJS c = false) →
      parseGitHubUrl (owner ++ "/" ++ repo) = none ∧
      parseGitHubUrlServer (owner ++ "/" ++ repo) = some ⟨owner, repo⟩) := by
  constructor
  · intro pre owner repo dec hpre ho1 ho2 hr1 hr2 hr3 hdec
    have hdata : (pre ++ "github.com/" ++ owner ++ "/" ++ repo ++ String.mk dec).data
        = pre.data ++ (ghMarker ++ (owner.data ++ '/' :: (repo.data ++ dec))) := by
      show (pre.data ++ "github.com/".data ++ owner.data ++ "/".data ++ repo.data ++ dec) = _
      simp [ghMarker]
    have hnws : ∀ c ∈ (pre ++ "github.com/" ++ owner ++ "/" ++ repo ++ String.mk dec).data,
        isWsJS c = false := by
      rw [hdata]
      intro c hc
      have hgm : ∀ x ∈ ghMarker, isWsJS x = false := by decide
      rcases List.mem_append.mp hc with h | h
      · exact (hpre c h).2
      rcases List.mem_append.mp h with h | h
      · exact hgm c h
      rcases List.mem_append.mp h with h | h
      · exact (ho2 c h).2
      rcases List.mem_cons.mp h with rfl | h
      · rfl
      rcases List.mem_append.mp h with h | h
      · exact (hr2 c h).2
      · exact decorationOk_no_ws hdec c h
    have htrim := jsTrim_eq_self hnws
    have hcore : parseCore ((pre ++ "github.com/" ++ owner ++ "/" ++ repo ++
        String.mk dec).data) = some (owner.data, repo.data) := by
      rw [hdata, parseCore_append_no_g (fun c hc => (hpre c hc).1)]
      exact parseCore_marker_some (ownerRepoScan_append (by simpa using ho1)
        (fun c hc => (ho2 c hc).1) (by simpa using hr1) (fun c hc => (hr2 c hc).1)
        hr3 (decorationOk_tailOk hdec) (decorationOk_head hdec))
    constructor
    · unfold parseGitHubUrl
      rw [htrim, hcore]
      rfl
    · unfold parseGitHubUrlServer
      rw [htrim, hcore]
  · intro owner repo ho1 ho2 hr1 hr2
    have hdata : (owner ++ "/" ++ repo).data = owner.data ++ '/' :: repo.data := by
      show owner.data ++ "/".data ++ repo.data = _
      simp
    have hnws : ∀ c ∈ (owner ++ "/" ++ repo).data, isWsJS c = false := by
      rw [hdata]
      intro c hc
      rcases List.mem_append.mp hc with h | h
      · exact (ho2 c h).2
      rcases List.mem_cons.mp h with rfl | h
      · rfl
      · exact (hr2 c h).2
    have htrim := jsTrim_eq_self hnws
    have hcount : ((owner ++ "/" ++ repo).data).count '/' = 1 := by
      rw [hdata, List.count_append, List.count_cons_self,
        List.count_eq_zero.mpr (fun hm => (ho2 '/' hm).1 rfl),
        List.count_eq_zero.mpr (fun hm => (hr2 '/' hm).1 rfl)]
    have hcore : parseCore ((owner ++ "/" ++ repo).data) = none := by
      rcases hpc : parseCore ((owner ++ "/" ++ repo).data) with _ | r
      · rfl
      · have := parseCore_some_two_slashes hpc
        omega
    constructor
    · unfold parseGitHubUrl
      rw [htrim, hcore]
      rfl
    · unfold parseGitHubUrlServer
      rw [htrim, hcore, hdata,
        bareScan_append (by simpa using ho1) ho2 (by simpa using hr1) hr2]
      rfl

/-- Counterexample to C6 as stated: the part_001 parser returns no RepoRef
for the valid bare shorthand, while the URL form of the same repository
parses; so the parser does not return the same RepoRef for every valid
input form. -/
theorem parseGitHubUrl_c6_counterexample :
    parseGitHubUrl "octocat/hello-world" = none ∧
    parseGitHubUrl "https://github.com/octocat/hello-world" =
      some ⟨"octocat", "hello-world"⟩ := by
  constructor <;> decide

/-- Witness for the amended C6 at concrete inputs. -/
theorem parseGitHubUrl_amended_witness :
    ((∀ c ∈ "https://".data, ¬ c = 'g' ∧ isWsJS c = false) ∧
     "octocat".data ≠ [] ∧ (∀ c ∈ "octocat".data, ¬ c = '/' ∧ isWsJS c = false) ∧
     "hello".data ≠ [] ∧ (∀ c ∈ "hello".data, ¬ c = '/' ∧ isWsJS c = false) ∧
     strContains "hello".data ".git".data = false ∧ decorationOk ".git".data ∧
     parseGitHubUrl ("https://" ++ "github.com/" ++ "octocat" ++ "/" ++ "hello" ++
        String.mk ".git".data) = some ⟨"octocat", "hello"⟩ ∧
     parseGitHubUrlServer ("https://" ++ "github.com/" ++ "octocat" ++ "/" ++ "hello" ++
        String.mk ".git".data) = some ⟨"octocat", "hello"⟩) ∧
    (parseGitHubUrl ("octocat" ++ "/" ++ "hello") = none ∧
     parseGitHubUrlServer ("octocat" ++ "/" ++ "hello") = some ⟨"octocat", "hello"⟩) := by
  have hdec : decorationOk ".git".data := Or.inr (Or.inr (Or.inl rfl))
  have h1 := parseGitHubUrl_amended.1 "https://" "octocat" "hello" ".git".data
    (by decide) (by decide) (by decide) (by decide) (by decide) (by decide) hdec
  have h2 := parseGitHubUrl_amended.2 "octocat" "hello"
    (by decide) (by decide) (by decide) (by decide)
  exact ⟨⟨by decide, by decide, by decide, by decide, by decide, by decide, hdec,
    h1.1, h1.2⟩, h2⟩

/-- **C7 (amended)**: on a bare input (at most one slash after trimming),
both parser variants reject strings with embedded whitespace, and both
reject strings missing a slash. -/
theorem parseGitHubUrl_reject_amended :
    ∀ s : String, (jsTrim s.data).count '/' ≤ 1 →
      ((∃ c ∈ jsTrim s.data, isWsJS c = true) ∨ '/' ∉ jsTrim s.data) →
      parseGitHubUrl s = none ∧ parseGitHubUrlServer s = none := by
  intro s h1 h2
  have hcore : parseCore (jsTrim s.data) = none := by
    rcases hpc : parseCore (jsTrim s.data) with _ | r
    · rfl
    · have := parseCore_some_two_slashes hpc
      omega
  have hbare : bareScan (jsTrim s.data) = none := by
    rcases hbs : bareScan (jsTrim s.data) with _ | r
    · rfl
    · rcases h2 with ⟨c, hc, hw⟩ | hns
      · have := bareScan_some_no_ws hbs c hc
        rw [this] at hw
        exact Bool.noConfusion hw
      · exact absurd (bareScan_some_slash hbs) hns
  constructor
  · unfold parseGitHubUrl
    rw [hcore]
    rfl
  · unfold parseGitHubUrlServer
    rw [hcore, hbare]
    rfl

/-- Counterexample to C7 as stated: embedded whitespace inside the owner
segment of a URL-form input is accepted by both parser variants, not
rejected. -/
theorem parseGitHubUrl_c7_counterexample :
    parseGitHubUrl "github.com/ow ner/repo" = some ⟨"ow ner", "repo"⟩ ∧
    parseGitHubUrlServer "github.com/ow ner/repo" = some ⟨"ow ner", "repo"⟩ := by
  constructor <;> decide

/-- Witness for the amended C7 at a concrete input. -/
theorem parseGitHubUrl_reject_amended_witness :
    (jsTrim "ab cd".data).count '/' ≤ 1 ∧ (∃ c ∈ jsTrim "ab cd".data, isWsJS c = true) ∧
    parseGitHubUrl "ab cd" = none ∧ parseGitHubUrlServer "ab cd" = none := by
  have h := parseGitHubUrl_reject_amended "ab cd" (by decide) (Or.inl (by decide))
  exact ⟨by decide, by decide, h.1, h.2⟩

end Readme

namespace Readme

/-! ## FilePrioritizer (`selectImportantFiles`) -/

/-- A file record as produced by `fetchRepoFiles`:
`{ name, path, size, download_url }`. -/
structure FileRec where
  name : String
  path : String
  size : Nat
  download_url : Option String
  deriving DecidableEq, Repr

/-- A prioritized file `{ ...file, priority }`. -/
structure PFile where
  file : FileRec
  priority : Nat
  deriving DecidableEq, Repr

/-- The fixed lookup table of canonical filenames in `selectImportantFiles`. -/
def basePriorities : List (String × Nat) :=
  [("package.json", 25), ("requirements.txt", 25), ("app.js", 22), ("main.js", 22),
   ("index.js", 22), ("server.js", 22), ("app.py", 22), ("main.py", 22),
   ("routes.js", 18), ("api.js", 18), ("config.js", 15), ("Dockerfile", 12),
   ("README.md", 8), (".env.example", 10), ("docker-compose.yml", 10)]

/-- The per-file score of `selectImportantFiles`.  The source consults only
`file.name`: every `includes`/`endsWith` test is on the name, never the path. -/
def filePriority (name : String) : Nat :=
  (((basePriorities.find? (fun p => p.1 = name)).map Prod.snd).getD 0) +
  (if strContains name.data "route".data || strContains name.data "api".data then 15 else 0) +
  (if strContains name.data "model".data || strContains name.data "controller".data
    then 12 else 0) +
  (if strContains name.data "service".data || strContains name.data "utils".data
    then 10 else 0) +
  (if strContains name.data "middleware".data || strContains name.data "auth".data
    then 8 else 0) +
  (if ".js".data.isSuffixOf name.data || ".py".data.isSuffixOf name.data then 8 else 0) +
  (if ".jsx".data.isSuffixOf name.data || ".ts".data.isSuffixOf name.data then 8 else 0) +
  (if ".vue".data.isSuffixOf name.data || ".component.js".data.isSuffixOf name.data
    then 6 else 0)

/-- `selectImportantFiles(files)`: score, stable sort by priority
descending, keep the top 50. -/
def selectImportantFiles (files : List FileRec) : List PFile :=
  ((files.map (fun f => ⟨f, filePriority f.name⟩ : FileRec → PFile)).mergeSort
    (fun a b => b.priority ≤ a.priority)).take 50

/-- Counterexample to C8 as stated: an entry whose path (but not name)
contains `route` gets priority 8 (source-extension bonus only), below the
15-point bonus the claim requires. -/
theorem selectImportantFiles_c8_counterexample :
    strContains "src/routes/entry.js".data "route".data = true ∧
    selectImportantFiles [⟨"entry.js", "src/routes/entry.js", 10, none⟩] =
      [⟨⟨"entry.js", "src/routes/entry.js", 10, none⟩, 8⟩] ∧ (8 : Nat) < 15 := by
  refine ⟨by decide, ?_, by omega⟩
  unfold selectImportantFiles
  rw [List.map_cons, List.map_nil, List.mergeSort_singleton,
    show filePriority "entry.js" = 8 from by decide]
  rfl

/-- **C8 (amended)**: the score of a selected file is a function of the
file name alone (the path is never consulted), and each substring bonus
is granted when the NAME contains the substring. -/
theorem selectImportantFiles_name_scoring :
    (∀ (files : List FileRec) (pf : PFile), pf ∈ selectImportantFiles files →
      pf.priority = filePriority pf.file.name) ∧
    (∀ name : String,
      (strContains name.data "route".data || strContains name.data "api".data) = true →
      15 ≤ filePriority name) ∧
    (∀ name : String,
      (strContains name.data "model".data || strContains name.data "controller".data) = true →
      12 ≤ filePriority name) ∧
    (∀ name : String,
      (strContains name.data "service".data || strContains name.data "utils".data) = true →
      10 ≤ filePriority name) ∧
    (∀ name : String,
      (strContains name.data "middleware".data || strContains name.data "auth".data) = true →
      8 ≤ filePriority name) := by
  refine ⟨?_, ?_, ?_, ?_, ?_⟩
  · intro files pf hpf
    have h1 : pf ∈ (files.map (fun f => ⟨f, filePriority f.name⟩ : FileRec → PFile)) :=
      List.mem_mergeSort.mp (List.mem_of_mem_take hpf)
    rcases List.mem_map.mp h1 with ⟨f, _, rfl⟩
    rfl
  · intro name h
    unfold filePriority
    rw [if_pos h]
    omega
  · intro name h
    unfold filePriority
    rw [if_pos h]
    omega
  · intro name h
    unfold filePriority
    rw [if_pos h]
    omega
  · intro name h
    unfold filePriority
    rw [if_pos h]
    omega

/-- Witness for the amended C8 at concrete inputs. -/
theorem selectImportantFiles_name_scoring_witness :
    ((⟨⟨"auth.js", "auth.js", 1, none⟩, 16⟩ : PFile) ∈
        selectImportantFiles [⟨"auth.js", "auth.js", 1, none⟩] ∧
      (16 : Nat) = filePriority "auth.js") ∧
    ((strContains "router.js".data "route".data || strContains "router.js".data "api".data)
        = true ∧ 15 ≤ filePriority "router.js") ∧
    ((strContains "model.py".data "model".data ||
        strContains "model.py".data "controller".data) = true ∧ 12 ≤ filePriority "model.py") ∧
    ((strContains "utils.py".data "service".data ||
        strContains "utils.py".data "utils".data) = true ∧ 10 ≤ filePriority "utils.py") ∧
    ((strContains "auth.js".data "middleware".data ||
        strContains "auth.js".data "auth".data) = true ∧ 8 ≤ filePriority "auth.js") := by
  have hsel : selectImportantFiles [⟨"auth.js", "auth.js", 1, none⟩] =
      [⟨⟨"auth.js", "auth.js", 1, none⟩, 16⟩] := by
    unfold selectImportantFiles
    rw [List.map_cons, List.map_nil, List.mergeSort_singleton,
      show filePriority "auth.js" = 16 from by decide]
    rfl
  have hmem : (⟨⟨"auth.js", "auth.js", 1, none⟩, 16⟩ : PFile) ∈
      selectImportantFiles [⟨"auth.js", "auth.js", 1, none⟩] := by
    rw [hsel]
    exact List.mem_cons_self _ _
  exact ⟨⟨hmem, selectImportantFiles_name_scoring.1 _ _ hmem⟩,
   ⟨by decide, selectImportantFiles_name_scoring.2.1 _ (by decide)⟩,
   ⟨by decide, selectImportantFiles_name_scoring.2.2.1 _ (by decide)⟩,
   ⟨by decide, selectImportantFiles_name_scoring.2.2.2.1 _ (by decide)⟩,
   ⟨by decide, selectImportantFiles_name_scoring.2.2.2.2 _ (by decide)⟩⟩

end Readme

namespace Readme

/-! ## LanguageCodeAnalyzer (`analyzeJavaScriptCode`, `analyzeCodeWithRegex`)

`analyzeCodeWithRegex` is modelled in full.  The Babel parse plus AST
traversal of `analyzeJavaScriptCode` is an external capability
(`@babel/parser` / `@babel/traverse`): it is modelled abstractly as a
function that either yields the collected structural fields or fails
(with a parse error or a traversal error); the `try/catch` around it is
the code under verification. -/

structure ImportInfo where
  source : String
  imports : List String
  deriving DecidableEq, Repr

structure FunctionInfo where
  name : String
  parameters : List String
  isAsync : Bool
  deriving DecidableEq, Repr

structure ClassInfo where
  name : String
  methods : List String
  deriving DecidableEq, Repr

structure ApiInfo where
  method : String
  route : String
  deriving DecidableEq, Repr

/-- A `FileAnalysis` object.  JS objects of the different analyzers carry
different keys; an absent key is `none`. -/
structure FileAnalysis where
  filename : String
  type : String
  functions : Option (List FunctionInfo) := none
  imports : Option (List ImportInfo) := none
  exports : Option (List String) := none
  classes : Option (List ClassInfo) := none
  apis : Option (List ApiInfo) := none
  frameworks : Option (List String) := none
  patterns : Option (List String) := none
  features : List String
  businessLogic : List String
  codeSnippets : String
  deriving DecidableEq, Repr

/-- One pass of a JS global case-insensitive alternation regex over
lowercased text: at each position try the alternatives in order; on a
match advance past it, otherwise advance one character. -/
def scanCount (alts : List (List Char)) : List Char → Nat
  | [] => 0
  | c :: rest =>
    match alts.find? (fun a => a.isPrefixOf (c :: rest)) with
    | some a => 1 + scanCount alts ((c :: rest).drop (a.length.max 1))
    | none => scanCount alts rest
termination_by cs => cs.length
decreasing_by
  · simp only [List.length_drop, List.length_cons]
    have : 1 ≤ a.length.max 1 := Nat.le_max_right _ _
    omega
  · simp

/-- `code.match(regex).length` for one of the `gi`-flagged alternation
regexes of `analyzeCodeWithRegex` (0 when there is no match). -/
def countMatches (alts : List (List Char)) (text : List Char) : Nat :=
  scanCount alts (text.map Char.toLower)

/-- The fixed domain-keyword table of `analyzeCodeWithRegex`. -/
def regexPatterns : List (String × List (List Char)) :=
  [("Authentication",
    ["auth".data, "login".data, "password".data, "jwt".data, "token".data, "session".data]),
   ("Database",
    ["database".data, "db".data, "sql".data, "mongo".data, "postgres".data, "mysql".data]),
   ("API", ["api".data, "endpoint".data, "route".data, "rest".data, "graphql".data]),
   ("File Upload", ["upload".data, "multer".data, "file".data, "attachment".data]),
   ("Email", ["email".data, "mail".data, "smtp".data, "nodemailer".data]),
   ("Payment", ["payment".data, "stripe".data, "paypal".data, "billing".data]),
   ("Machine Learning",
    ["tensorflow".data, "torch".data, "sklearn".data, "model".data, "predict".data]),
   ("Data Processing",
    ["pandas".data, "numpy".data, "data".data, "process".data, "analyze".data])]

/-- The accumulation step of `analyzeCodeWithRegex`: a feature whose
pattern matches more than 2 times is recorded with a count note. -/
def regexStep (code : String) (acc : List String × List String)
    (p : String × List (List Char)) : List String × List String :=
  let n := countMatches p.2 code.data
  if n > 2 then
    (acc.1 ++ [p.1], acc.2 ++ [p.1 ++ ": Found " ++ toString n ++ " references"])
  else acc

/-- `analyzeCodeWithRegex(code, filename)` — the universal keyword
fallback: `{ filename, type: 'unknown', patterns: [], features,
businessLogic, codeSnippets }`. -/
def analyzeCodeWithRegex (code : String) (filename : String) : FileAnalysis :=
  let hits := regexPatterns.foldl (regexStep code) ([], [])
  { filename := filename, type := "unknown", patterns := some [],
    features := hits.1, businessLogic := hits.2,
    codeSnippets := extractCodeSnippets code filename }

/-- The structural fields collected by a successful Babel parse plus
traversal (the external capability). -/
structure JsStructural where
  functions : List FunctionInfo
  imports : List ImportInfo
  exports : List String
  classes : List ClassInfo
  apis : List ApiInfo
  frameworks : List String
  features : List String
  businessLogic : List String

/-- `analyzeJavaScriptCode(code, filename)`: tries the structural strategy
inside `try/catch`; any error falls back to `analyzeCodeWithRegex`. -/
def analyzeJavaScriptCode (parseTraverse : String → Except String JsStructural)
    (code : String) (filename : String) : FileAnalysis :=
  match parseTraverse code with
  | .error _ => analyzeCodeWithRegex code filename
  | .ok s =>
    { filename := filename, type := "javascript",
      functions := some s.functions, imports := some s.imports,
      exports := some s.exports, classes := some s.classes, apis := some s.apis,
      frameworks := some s.frameworks, patterns := none,
      features := s.features, businessLogic := s.businessLogic,
      codeSnippets := extractCodeSnippets code filename }

/-- **C5**: the analyzer is a total function of its input (no error escapes
its boundary), and on any parse/traversal failure it returns exactly the
regex-fallback `FileAnalysis`. -/
theorem analyzeJavaScriptCode_never_throws :
    ∀ (parseTraverse : String → Except String JsStructural) (code filename : String),
      (∃ fa : FileAnalysis, analyzeJavaScriptCode parseTraverse code filename = fa) ∧
      (∀ e, parseTraverse code = .error e →
        analyzeJavaScriptCode parseTraverse code filename =
          analyzeCodeWithRegex code filename) := by
  intro pt code filename
  refine ⟨⟨_, rfl⟩, ?_⟩
  intro e he
  unfold analyzeJavaScriptCode
  rw [he]

/-- Witness for C5 on a malformed source file with a failing parser. -/
theorem analyzeJavaScriptCode_never_throws_witness :
    ((fun _ : String => (Except.error "SyntaxError" : Except String JsStructural))
        "function (" = Except.error "SyntaxError") ∧
    analyzeJavaScriptCode (fun _ => Except.error "SyntaxError") "function (" "bad.js" =
      analyzeCodeWithRegex "function (" "bad.js" :=
  ⟨rfl, (analyzeJavaScriptCode_never_throws (fun _ => Except.error "SyntaxError")
    "function (" "bad.js").2 "SyntaxError" rfl⟩

theorem regexFold_spec (code : String) :
    ∀ (ps : List (String × List (List Char))) (acc1 acc2 : List String),
      ps.foldl (regexStep code) (acc1, acc2) =
        (acc1 ++ (ps.filter (fun p => countMatches p.2 code.data > 2)).map Prod.fst,
         acc2 ++ (ps.filter (fun p => countMatches p.2 code.data > 2)).map
           (fun p => p.1 ++ ": Found " ++ toString (countMatches p.2 code.data) ++
             " references")) := by
  intro ps
  induction ps with
  | nil => intro acc1 acc2; simp
  | cons p ps' ih =>
    intro acc1 acc2
    rw [List.foldl_cons]
    by_cases hn : countMatches p.2 code.data > 2
    · rw [show regexStep code (acc1, acc2) p =
        (acc1 ++ [p.1], acc2 ++ [p.1 ++ ": Found " ++
          toString (countMatches p.2 code.data) ++ " references"]) from by
            unfold regexStep; rw [if_pos hn]]
      rw [ih]
      rw [List.filter_cons_of_pos (by simpa using hn)]
      simp
    · rw [show regexStep code (acc1, acc2) p = (acc1, acc2) from by
        unfold regexStep; rw [if_neg hn]]
      rw [ih]
      rw [List.filter_cons_of_neg (by simpa using hn)]

/-- **C10**: on parse failure the returned analysis is exactly the
universal keyword-fallback shape: type `unknown`, no structural fields,
features precisely the labels matching more than 2 times with their
count notes, and the bounded excerpt attached. -/
theorem analyzeJavaScriptCode_fallback_shape :
    ∀ (parseTraverse : String → Except String JsStructural) (code filename : String) e,
      parseTraverse code = .error e →
      (analyzeJavaScriptCode parseTraverse code filename).type = "unknown" ∧
      (analyzeJavaScriptCode parseTraverse code filename).functions = none ∧
      (analyzeJavaScriptCode parseTraverse code filename).imports = none ∧
      (analyzeJavaScriptCode parseTraverse code filename).classes = none ∧
      (analyzeJavaScriptCode parseTraverse code filename).apis = none ∧
      (analyzeJavaScriptCode parseTraverse code filename).features =
        (regexPatterns.filter (fun p => countMatches p.2 code.data > 2)).map Prod.fst ∧
      (analyzeJavaScriptCode parseTraverse code filename).businessLogic =
        (regexPatterns.filter (fun p => countMatches p.2 code.data > 2)).map
          (fun p => p.1 ++ ": Found " ++ toString (countMatches p.2 code.data) ++
            " references") ∧
      (analyzeJavaScriptCode parseTraverse code filename).codeSnippets =
        extractCodeSnippets code filename := by
  intro pt code filename e he
  have hfb : analyzeJavaScriptCode pt code filename = analyzeCodeWithRegex code filename := by
    unfold analyzeJavaScriptCode
    rw [he]
  rw [hfb]
  unfold analyzeCodeWithRegex
  have hfold := regexFold_spec code regexPatterns [] []
  simp only [List.nil_append] at hfold
  rw [hfold]
  exact ⟨rfl, rfl, rfl, rfl, rfl, rfl, rfl, rfl⟩

/-- Witness for C10 with a concrete failing parse. -/
theorem analyzeJavaScriptCode_fallback_shape_witness :
    ((fun _ : String => (Except.error "Unexpected token" : Except String JsStructural))
        "auth auth auth" = Except.error "Unexpected token") ∧
    ((analyzeJavaScriptCode (fun _ => Except.error "Unexpected token")
        "auth auth auth" "x.js").type = "unknown" ∧
     (analyzeJavaScriptCode (fun _ => Except.error "Unexpected token")
        "auth auth auth" "x.js").functions = none ∧
     (analyzeJavaScriptCode (fun _ => Except.error "Unexpected token")
        "auth auth auth" "x.js").imports = none ∧
     (analyzeJavaScriptCode (fun _ => Except.error "Unexpected token")
        "auth auth auth" "x.js").classes = none ∧
     (analyzeJavaScriptCode (fun _ => Except.error "Unexpected token")
        "auth auth auth" "x.js").apis = none ∧
     (analyzeJavaScriptCode (fun _ => Except.error "Unexpected token")
        "auth auth auth" "x.js").features =
       (regexPatterns.filter
         (fun p => countMatches p.2 "auth auth auth".data > 2)).map Prod.fst ∧
     (analyzeJavaScriptCode (fun _ => Except.error "Unexpected token")
        "auth auth auth" "x.js").businessLogic =
       (regexPatterns.filter (fun p => countMatches p.2 "auth auth auth".data > 2)).map
         (fun p => p.1 ++ ": Found " ++ toString (countMatches p.2 "auth auth auth".data) ++
           " references") ∧
     (analyzeJavaScriptCode (fun _ => Except.error "Unexpected token")
        "auth auth auth" "x.js").codeSnippets =
       extractCodeSnippets "auth auth auth" "x.js") :=
  ⟨rfl, analyzeJavaScriptCode_fallback_shape (fun _ => Except.error "Unexpected token")
    "auth auth auth" "x.js" "Unexpected token" rfl⟩

end Readme

namespace Readme

/-! ## PromptComposer postprocess

`readme.replace(/^```(?:markdown)?\s*/i, '').replace(/```$/, '').trim()`
from `generateIntelligentReadme`. -/

/-- `replace(/^```(?:markdown)?\s*/i, '')`: an anchored leading fence,
an optional case-insensitive `markdown` tag, then greedy whitespace. -/
def stripLeadFence (cs : List Char) : List Char :=
  if "```".data.isPrefixOf cs then
    List.dropWhile isWsJS
      (if "markdown".data = ((cs.drop 3).take 8).map Char.toLower
       then (cs.drop 3).drop 8 else cs.drop 3)
  else cs

/-- `replace(/```$/, '')`: a trailing fence exactly at the end of the
string (no `m` flag, so `$` is the absolute end). -/
def stripTrailFence (cs : List Char) : List Char :=
  if "```".data.reverse.isPrefixOf cs.reverse then (cs.reverse.drop 3).reverse else cs

/-- The provider-output postprocessing of `generateIntelligentReadme`. -/
def postprocess (s : String) : String :=
  String.mk (jsTrim (stripTrailFence (stripLeadFence s.data)))

theorem strContains_of_isPrefixOf {s pat : List Char} (h : pat.isPrefixOf s = true)
    (hne : pat ≠ []) : strContains s pat = true := by
  match s with
  | [] =>
    obtain ⟨t, ht⟩ := isPrefixOf_exists_append h
    match pat with
    | [] => exact absurd rfl hne
    | p :: ps => exact absurd ht.symm (by simp)
  | c :: rest =>
    rw [strContains_cons, h]
    simp

theorem strContains_suffix {s t pat : List Char} (hsfx : s.reverse = pat.reverse ++ t)
    (hne : pat ≠ []) : strContains s pat = true := by
  have hs : s = t.reverse ++ pat := by
    have := congrArg List.reverse hsfx
    simpa using this
  subst hs
  clear hsfx
  induction t.reverse with
  | nil =>
    simp only [List.nil_append]
    have hp : pat.isPrefixOf pat = true := by
      have := isPrefixOf_append_self pat []
      rw [List.append_nil] at this
      exact this
    exact strContains_of_isPrefixOf hp hne
  | cons c cs ih =>
    rw [List.cons_append, strContains_cons, ih]
    simp

end Readme

namespace Readme

theorem stripLeadFence_markdown (b : List Char) (hne : b ≠ [])
    (hb : ∀ c, b.head? = some c → isWsJS c = false) :
    stripLeadFence ("```markdown\n".data ++ (b ++ "\n```".data)) = b ++ "\n```".data := by
  unfold stripLeadFence
  rw [if_pos (by
    rw [show "```markdown\n".data ++ (b ++ "\n```".data) =
      "```".data ++ ("markdown\n".data ++ (b ++ "\n```".data)) from rfl]
    exact isPrefixOf_append_self _ _)]
  rw [show ("```markdown\n".data ++ (b ++ "\n```".data)).drop 3 =
    "markdown\n".data ++ (b ++ "\n```".data) from rfl]
  rw [if_pos (show "markdown".data =
    (("markdown\n".data ++ (b ++ "\n```".data)).take 8).map Char.toLower from rfl)]
  rw [show ("markdown\n".data ++ (b ++ "\n```".data)).drop 8 =
    '\n' :: (b ++ "\n```".data) from rfl]
  rw [List.dropWhile_cons, show isWsJS '\n' = true from rfl]
  simp only [if_true]
  match b, hne with
  | c :: rest, _ =>
    rw [List.cons_append, List.dropWhile_cons, hb c rfl]
    simp

theorem stripLeadFence_bare (b : List Char) (hne : b ≠ [])
    (hb : ∀ c, b.head? = some c → isWsJS c = false) :
    stripLeadFence ("```\n".data ++ (b ++ "\n```".data)) = b ++ "\n```".data := by
  unfold stripLeadFence
  rw [if_pos (by
    rw [show "```\n".data ++ (b ++ "\n```".data) =
      "```".data ++ ('\n' :: (b ++ "\n```".data)) from rfl]
    exact isPrefixOf_append_self _ _)]
  rw [show ("```\n".data ++ (b ++ "\n```".data)).drop 3 =
    '\n' :: (b ++ "\n```".data) from rfl]
  rw [if_neg (by
    intro h
    have h2 : some 'm' = some '\n' := by
      calc some 'm' = ("markdown".data).head? := rfl
        _ = ((('\n' :: (b ++ "\n```".data)).take 8).map Char.toLower).head? :=
          congrArg List.head? h
        _ = some '\n' := rfl
    exact absurd h2 (by decide))]
  rw [List.dropWhile_cons, show isWsJS '\n' = true from rfl]
  simp only [if_true]
  match b, hne with
  | c :: rest, _ =>
    rw [List.cons_append, List.dropWhile_cons, hb c rfl]
    simp

theorem stripTrailFence_append (b : List Char) :
    stripTrailFence (b ++ "\n```".data) = b ++ ['\n'] := by
  have hrev : (b ++ "\n```".data).reverse = "```".data.reverse ++ ('\n' :: b.reverse) := by
    rw [List.reverse_append]
    rfl
  unfold stripTrailFence
  rw [if_pos (by rw [hrev]; exact isPrefixOf_append_self _ _)]
  rw [hrev]
  rw [show ("```".data.reverse ++ ('\n' :: b.reverse)).drop 3 = '\n' :: b.reverse from rfl]
  rw [List.reverse_cons, List.reverse_reverse]

theorem jsTrim_wrap {b : List Char} (hne : b ≠ [])
    (hh : ∀ c, b.head? = some c → isWsJS c = false)
    (hl : ∀ c, b.getLast? = some c → isWsJS c = false) :
    jsTrim (b ++ ['\n']) = b := by
  unfold jsTrim
  match b, hne, hh, hl with
  | c :: rest, _, hh, hl =>
    rw [List.cons_append, List.dropWhile_cons, hh c rfl]
    simp only [Bool.false_eq_true, if_false]
    rw [show (c :: (rest ++ ['\n'])).reverse = '\n' :: (c :: rest).reverse from by
      rw [show c :: (rest ++ ['\n']) = (c :: rest) ++ ['\n'] from rfl, List.reverse_append]
      rfl]
    rw [List.dropWhile_cons, show isWsJS '\n' = true from rfl]
    simp only [if_true]
    rcases hrevd : (c :: rest).reverse with _ | ⟨d, ds⟩
    · exact absurd (congrArg List.length hrevd) (by simp)
    · rw [List.dropWhile_cons]
      have hd : (c :: rest).getLast? = some d := by
        rw [← List.head?_reverse, hrevd]
        rfl
      rw [hl d hd]
      simp only [Bool.false_eq_true, if_false]
      rw [← hrevd, List.reverse_reverse]

/-- **C9 (amended)**: `postprocess` strips a leading ```` ```markdown ````
or bare ```` ``` ```` fence and the trailing ```` ``` ````; on text with
no fence marker it returns the input trimmed of surrounding whitespace —
the identity exactly when the input has no surrounding whitespace. -/
theorem postprocess_amended :
    (∀ s : String, strContains s.data "```".data = false →
      postprocess s = String.mk (jsTrim s.data) ∧
      (jsTrim s.data = s.data → postprocess s = s)) ∧
    (∀ body : String, body.data ≠ [] →
      (∀ c, body.data.head? = some c → isWsJS c = false) →
      (∀ c, body.data.getLast? = some c → isWsJS c = false) →
      postprocess ("```markdown\n" ++ body ++ "\n```") = body ∧
      postprocess ("```\n" ++ body ++ "\n```") = body) := by
  constructor
  · intro s hnf
    have hlead : stripLeadFence s.data = s.data := by
      unfold stripLeadFence
      rw [if_neg]
      intro h
      rw [strContains_of_isPrefixOf h (by decide)] at hnf
      exact Bool.noConfusion hnf
    have htrail : stripTrailFence s.data = s.data := by
      unfold stripTrailFence
      rw [if_neg]
      intro h
      obtain ⟨t, ht⟩ := isPrefixOf_exists_append h
      rw [strContains_suffix ht (by decide)] at hnf
      exact Bool.noConfusion hnf
    constructor
    · unfold postprocess
      rw [hlead, htrail]
    · intro ht
      unfold postprocess
      rw [hlead, htrail, ht]
  · intro body hne hh hl
    constructor
    · unfold postprocess
      rw [show ("```markdown\n" ++ body ++ "\n```").data =
        "```markdown\n".data ++ (body.data ++ "\n```".data) from by simp]
      rw [stripLeadFence_markdown body.data hne hh, stripTrailFence_append,
        jsTrim_wrap hne hh hl]
    · unfold postprocess
      rw [show ("```\n" ++ body ++ "\n```").data =
        "```\n".data ++ (body.data ++ "\n```".data) from by simp]
      rw [stripLeadFence_bare body.data hne hh, stripTrailFence_append,
        jsTrim_wrap hne hh hl]

/-- Counterexample to C9 as stated: on unfenced text with surrounding
whitespace, `postprocess` trims it and is not the identity. -/
theorem postprocess_c9_counterexample :
    strContains " hi ".data "```".data = false ∧ postprocess " hi " = "hi" ∧
    (" hi " : String) ≠ "hi" := by
  exact ⟨by decide, by decide, by decide⟩

/-- Witness for the amended C9 at concrete inputs. -/
theorem postprocess_amended_witness :
    (strContains "ok".data "```".data = false ∧ jsTrim "ok".data = "ok".data ∧
      postprocess "ok" = "ok") ∧
    ("# T".data ≠ [] ∧
      postprocess ("```markdown\n" ++ "# T" ++ "\n```") = "# T" ∧
      postprocess ("```\n" ++ "# T" ++ "\n```") = "# T") := by
  have hh : ∀ c, ("# T".data).head? = some c → isWsJS c = false := by
    intro c hc
    have h2 : '#' = c := Option.some.inj hc
    rw [← h2]
    decide
  have hl : ∀ c, ("# T".data).getLast? = some c → isWsJS c = false := by
    intro c hc
    have h2 : 'T' = c := Option.some.inj hc
    rw [← h2]
    decide
  have h1 := postprocess_amended.1 "ok" (by decide)
  have h2 := postprocess_amended.2 "# T" (by decide) hh hl
  exact ⟨⟨by decide, by decide, h1.2 (by decide)⟩, ⟨by decide, h2.1, h2.2⟩⟩

end Readme

namespace Readme

/-! ## TreeCrawler (`fetchRepoFiles`)

The directory-listing capability is modelled by a synthetic tree: a
listing either fails (`makeRequest` throws), returns a non-array value,
or returns a list of entries; a directory entry carries its own subtree.
`fetchRepoFiles` is the faithful translation of the recursive crawl:
depth guard, per-directory cap of 150 items, root-only progress events,
2 MB file-size cap, dot-prefix and fixed-name directory exclusion, and
the root-propagate / subtree-swallow error policy. -/

mutual
inductive Tree where
  | fail (msg : String)
  | notArr
  | node (entries : List TEntry)
  deriving Repr

inductive TEntry where
  | file (name : String) (size : Nat) (url : Option String)
  | dir (name : String) (sub : Tree)
  deriving Repr
end

/-- The fixed exclusion set of `fetchRepoFiles`. -/
def excludedDirNames : List String :=
  ["node_modules", "vendor", "dist", "build", "__pycache__", ".git"]

/-- GitHub-style item path of a child of `path` named `name`. -/
def childPath (path name : String) : String :=
  if path = "" then name else path ++ "/" ++ name

/-- `Math.round((i / totalItems) * 20)`: round-half-up of `20·i/total`,
computed on rationals via `⌊(40·i + total) / (2·total)⌋`. -/
def pct20 (i total : Nat) : Nat := (40 * i + total) / (2 * total)

mutual
/-- `fetchRepoFiles(owner, repo, path, depth, progressCallback, token)`:
returns the gathered file records together with the root-level progress
percentages it emits, or the error when the root listing fails. -/
def fetchRepoFiles (t : Tree) (path : String) (depth : Nat) :
    Except String (List FileRec × List Nat) :=
  if depth > 3 then .ok ([], [])
  else
    match t with
    | .fail msg => if depth = 0 then .error msg else .ok ([], [])
    | .notArr => .ok ([], [])
    | .node entries =>
      match crawlEntries entries path depth (min entries.length 150) 0 with
      | .error e => if depth = 0 then .error e else .ok ([], [])
      | .ok r => .ok r
termination_by sizeOf t
decreasing_by
  simp_wf

/-- The `for (let i = 0; i < totalItems; i++)` loop body of
`fetchRepoFiles`: progress is emitted (at depth 0) before each item, a
small file is recorded, an includable directory is recursed into. -/
def crawlEntries (es : List TEntry) (path : String) (depth total i : Nat) :
    Except String (List FileRec × List Nat) :=
  match es with
  | [] => .ok ([], [])
  | e :: rest =>
    if i < total then
      let evs0 := if depth = 0 then [pct20 i total] else []
      match e with
      | .file name size url =>
        if size < 2 * 1024 * 1024 then
          match crawlEntries rest path depth total (i + 1) with
          | .error er => .error er
          | .ok (fs, evs) =>
            .ok (⟨name, childPath path name, size, url⟩ :: fs, evs0 ++ evs)
        else
          match crawlEntries rest path depth total (i + 1) with
          | .error er => .error er
          | .ok (fs, evs) => .ok (fs, evs0 ++ evs)
      | .dir name sub =>
        if depth < 3 && !(".".data.isPrefixOf name.data) &&
            !(excludedDirNames.contains name) then
          match fetchRepoFiles sub (childPath path name) (depth + 1) with
          | .error er => .error er
          | .ok (subFs, subEvs) =>
            match crawlEntries rest path depth total (i + 1) with
            | .error er => .error er
            | .ok (fs, evs) => .ok (subFs ++ fs, evs0 ++ subEvs ++ evs)
        else
          match crawlEntries rest path depth total (i + 1) with
          | .error er => .error er
          | .ok (fs, evs) => .ok (fs, evs0 ++ evs)
    else .ok ([], [])
termination_by sizeOf es
decreasing_by
  all_goals simp_wf
  all_goals omega
end

end Readme

namespace Readme

/-! ### Unfolding equations for the crawler -/

theorem crawlEntries_nil (path : String) (depth total i : Nat) :
    crawlEntries [] path depth total i = .ok ([], []) := by
  unfold crawlEntries
  rfl

theorem crawlEntries_cons (e : TEntry) (rest : List TEntry) (path : String)
    (depth total i : Nat) :
    crawlEntries (e :: rest) path depth total i =
      (if i < total then
        match e with
        | .file name size url =>
          if size < 2 * 1024 * 1024 then
            match crawlEntries rest path depth total (i + 1) with
            | .error er => .error er
            | .ok (fs, evs) =>
              .ok (⟨name, childPath path name, size, url⟩ :: fs,
                (if depth = 0 then [pct20 i total] else []) ++ evs)
          else
            match crawlEntries rest path depth total (i + 1) with
            | .error er => .error er
            | .ok (fs, evs) => .ok (fs, (if depth = 0 then [pct20 i total] else []) ++ evs)
        | .dir name sub =>
          if depth < 3 && !(".".data.isPrefixOf name.data) &&
              !(excludedDirNames.contains name) then
            match fetchRepoFiles sub (childPath path name) (depth + 1) with
            | .error er => .error er
            | .ok (subFs, subEvs) =>
              match crawlEntries rest path depth total (i + 1) with
              | .error er => .error er
              | .ok (fs, evs) =>
                .ok (subFs ++ fs,
                  (if depth = 0 then [pct20 i total] else []) ++ subEvs ++ evs)
          else
            match crawlEntries rest path depth total (i + 1) with
            | .error er => .error er
            | .ok (fs, evs) => .ok (fs, (if depth = 0 then [pct20 i total] else []) ++ evs)
      else .ok ([], [])) := by
  conv_lhs => unfold crawlEntries

theorem crawlEntries_cons_file (name : String) (size : Nat) (url : Option String)
    (rest : List TEntry) (path : String) (depth total i : Nat) :
    crawlEntries (.file name size url :: rest) path depth total i =
      (if i < total then
        if size < 2 * 1024 * 1024 then
          match crawlEntries rest path depth total (i + 1) with
          | .error er => .error er
          | .ok (fs, evs) =>
            .ok (⟨name, childPath path name, size, url⟩ :: fs,
              (if depth = 0 then [pct20 i total] else []) ++ evs)
        else
          match crawlEntries rest path depth total (i + 1) with
          | .error er => .error er
          | .ok (fs, evs) => .ok (fs, (if depth = 0 then [pct20 i total] else []) ++ evs)
      else .ok ([], [])) := by
  rw [crawlEntries_cons]

theorem crawlEntries_cons_dir (name : String) (sub : Tree)
    (rest : List TEntry) (path : String) (depth total i : Nat) :
    crawlEntries (.dir name sub :: rest) path depth total i =
      (if i < total then
        if depth < 3 && !(".".data.isPrefixOf name.data) &&
            !(excludedDirNames.contains name) then
          match fetchRepoFiles sub (childPath path name) (depth + 1) with
          | .error er => .error er
          | .ok (subFs, subEvs) =>
            match crawlEntries rest path depth total (i + 1) with
            | .error er => .error er
            | .ok (fs, evs) =>
              .ok (subFs ++ fs,
                (if depth = 0 then [pct20 i total] else []) ++ subEvs ++ evs)
        else
          match crawlEntries rest path depth total (i + 1) with
          | .error er => .error er
          | .ok (fs, evs) => .ok (fs, (if depth = 0 then [pct20 i total] else []) ++ evs)
      else .ok ([], [])) := by
  rw [crawlEntries_cons]

theorem fetchRepoFiles_fail (msg path : String) (depth : Nat) :
    fetchRepoFiles (.fail msg) path depth =
      if depth > 3 then .ok ([], [])
      else if depth = 0 then .error msg else .ok ([], []) := by
  conv_lhs => unfold fetchRepoFiles

theorem fetchRepoFiles_notArr (path : String) (depth : Nat) :
    fetchRepoFiles .notArr path depth = .ok ([], []) := by
  unfold fetchRepoFiles
  split <;> rfl

theorem fetchRepoFiles_node (entries : List TEntry) (path : String) (depth : Nat) :
    fetchRepoFiles (.node entries) path depth =
      if depth > 3 then .ok ([], [])
      else
        match crawlEntries entries path depth (min entries.length 150) 0 with
        | .error e => if depth = 0 then .error e else .ok ([], [])
        | .ok r => .ok r := by
  conv_lhs => unfold fetchRepoFiles

end Readme

namespace Readme

/-! ### Crawl totality below the root and event structure -/

mutual
theorem fetchRepoFiles_total (t : Tree) (path : String) (depth : Nat) (hd : 0 < depth) :
    ∃ r, fetchRepoFiles t path depth = .ok r := by
  match t with
  | .fail msg =>
    rw [fetchRepoFiles_fail]
    by_cases h3 : depth > 3
    · rw [if_pos h3]
      exact ⟨_, rfl⟩
    · rw [if_neg h3, if_neg (by omega)]
      exact ⟨_, rfl⟩
  | .notArr =>
    rw [fetchRepoFiles_notArr]
    exact ⟨_, rfl⟩
  | .node entries =>
    rw [fetchRepoFiles_node]
    by_cases h3 : depth > 3
    · rw [if_pos h3]
      exact ⟨_, rfl⟩
    · rw [if_neg h3]
      obtain ⟨r, hr⟩ := crawlEntries_total entries path depth (min entries.length 150) 0
      rw [hr]
      exact ⟨_, rfl⟩
termination_by sizeOf t
decreasing_by
  simp_wf

theorem crawlEntries_total (es : List TEntry) (path : String) (depth total i : Nat) :
    ∃ r, crawlEntries es path depth total i = .ok r := by
  match es with
  | [] =>
    rw [crawlEntries_nil]
    exact ⟨_, rfl⟩
  | e :: rest =>
    obtain ⟨⟨fs', evs'⟩, hr⟩ := crawlEntries_total rest path depth total (i + 1)
    match e with
    | .file name size url =>
      rw [crawlEntries_cons_file]
      by_cases hi : i < total
      · rw [if_pos hi]
        by_cases hs : size < 2 * 1024 * 1024
        · rw [if_pos hs, hr]
          exact ⟨_, rfl⟩
        · rw [if_neg hs, hr]
          exact ⟨_, rfl⟩
      · rw [if_neg hi]
        exact ⟨_, rfl⟩
    | .dir name sub =>
      rw [crawlEntries_cons_dir]
      by_cases hi : i < total
      · rw [if_pos hi]
        by_cases hc : (depth < 3 && !(".".data.isPrefixOf name.data) &&
            !(excludedDirNames.contains name)) = true
        · obtain ⟨⟨sf, se⟩, hf⟩ :=
            fetchRepoFiles_total sub (childPath path name) (depth + 1) (by omega)
          rw [if_pos hc, hf, hr]
          exact ⟨_, rfl⟩
        · rw [if_neg hc, hr]
          exact ⟨_, rfl⟩
      · rw [if_neg hi]
        exact ⟨_, rfl⟩
termination_by sizeOf es
decreasing_by
  all_goals simp_wf
  all_goals omega
end

end Readme

namespace Readme

theorem ok_pair_inj {α β : Type} {a a' : α} {b b' : β}
    (h : (Except.ok (a, b) : Except String (α × β)) = .ok (a', b')) : a = a' ∧ b = b' := by
  injection h with h2
  injection h2 with ha hb
  exact ⟨ha, hb⟩

mutual
/-- Progress is emitted only at the root: a crawl started at depth > 0
produces no events. -/
theorem fetchRepoFiles_events_nil (t : Tree) (path : String) (depth : Nat) (hd : 0 < depth)
    (fs : List FileRec) (evs : List Nat)
    (h : fetchRepoFiles t path depth = .ok (fs, evs)) : evs = [] := by
  match t with
  | .fail msg =>
    rw [fetchRepoFiles_fail] at h
    by_cases h3 : depth > 3
    · rw [if_pos h3] at h
      exact (ok_pair_inj h).2.symm
    · rw [if_neg h3, if_neg (by omega)] at h
      exact (ok_pair_inj h).2.symm
  | .notArr =>
    rw [fetchRepoFiles_notArr] at h
    exact (ok_pair_inj h).2.symm
  | .node entries =>
    rw [fetchRepoFiles_node] at h
    by_cases h3 : depth > 3
    · rw [if_pos h3] at h
      exact (ok_pair_inj h).2.symm
    · rw [if_neg h3] at h
      rcases hcr : crawlEntries entries path depth (min entries.length 150) 0 with er | ⟨fs₀, evs₀⟩
      · rw [hcr] at h
        replace h : (if depth = 0 then (Except.error er : Except String (List FileRec × List Nat))
            else Except.ok ([], [])) = Except.ok (fs, evs) := h
        rw [if_neg (by omega)] at h
        exact (ok_pair_inj h).2.symm
      · rw [hcr] at h
        have := crawlEntries_events_nil entries path depth (min entries.length 150) 0
          (by omega) fs₀ evs₀ hcr
        rw [← (ok_pair_inj h).2]
        exact this
termination_by sizeOf t
decreasing_by
  simp_wf

theorem crawlEntries_events_nil (es : List TEntry) (path : String) (depth total i : Nat)
    (hd : 0 < depth) (fs : List FileRec) (evs : List Nat)
    (h : crawlEntries es path depth total i = .ok (fs, evs)) : evs = [] := by
  match es with
  | [] =>
    rw [crawlEntries_nil] at h
    exact (ok_pair_inj h).2.symm
  | .file name size url :: rest =>
    rw [crawlEntries_cons_file] at h
    by_cases hi : i < total
    · rw [if_pos hi] at h
      rcases hcr : crawlEntries rest path depth total (i + 1) with er | ⟨fs', evs'⟩
      · rw [hcr] at h
        by_cases hs : size < 2 * 1024 * 1024 <;>
          [rw [if_pos hs] at h; rw [if_neg hs] at h] <;> exact absurd h (by simp)
      · rw [hcr] at h
        have ih := crawlEntries_events_nil rest path depth total (i + 1) hd fs' evs' hcr
        by_cases hs : size < 2 * 1024 * 1024
        · rw [if_pos hs] at h
          rw [← (ok_pair_inj h).2, if_neg (by omega), ih]
          rfl
        · rw [if_neg hs] at h
          rw [← (ok_pair_inj h).2, if_neg (by omega), ih]
          rfl
    · rw [if_neg hi] at h
      exact (ok_pair_inj h).2.symm
  | .dir name sub :: rest =>
    rw [crawlEntries_cons_dir] at h
    by_cases hi : i < total
    · rw [if_pos hi] at h
      by_cases hc : (depth < 3 && !(".".data.isPrefixOf name.data) &&
          !(excludedDirNames.contains name)) = true
      · rw [if_pos hc] at h
        rcases hf : fetchRepoFiles sub (childPath path name) (depth + 1) with er | ⟨sf, se⟩
        · rw [hf] at h
          exact absurd h (by simp)
        · rw [hf] at h
          rcases hcr : crawlEntries rest path depth total (i + 1) with er | ⟨fs', evs'⟩
          · rw [hcr] at h
            exact absurd h (by simp)
          · rw [hcr] at h
            have ih := crawlEntries_events_nil rest path depth total (i + 1) hd fs' evs' hcr
            have hse := fetchRepoFiles_events_nil sub (childPath path name) (depth + 1)
              (by omega) sf se hf
            rw [← (ok_pair_inj h).2, if_neg (by omega), ih, hse]
            rfl
      · rw [if_neg hc] at h
        rcases hcr : crawlEntries rest path depth total (i + 1) with er | ⟨fs', evs'⟩
        · rw [hcr] at h
          exact absurd h (by simp)
        · rw [hcr] at h
          have ih := crawlEntries_events_nil rest path depth total (i + 1) hd fs' evs' hcr
          rw [← (ok_pair_inj h).2, if_neg (by omega), ih]
          rfl
    · rw [if_neg hi] at h
      exact (ok_pair_inj h).2.symm
termination_by sizeOf es
decreasing_by
  all_goals simp_wf
  all_goals omega
end

end Readme

namespace Readme

/-! ### C4: root failures propagate, subtree failures are swallowed -/

mutual
/-- Replace every failing sub-listing strictly below the current node by an
empty directory, leaving the node itself untouched. -/
def pruneTree : Tree → Tree
  | .fail m => .fail m
  | .notArr => .notArr
  | .node es => .node (pruneEntries es)

def pruneEntries : List TEntry → List TEntry
  | [] => []
  | .file n s u :: r => .file n s u :: pruneEntries r
  | .dir n sub :: r => .dir n (pruneSub sub) :: pruneEntries r

def pruneSub : Tree → Tree
  | .fail _ => .node []
  | .notArr => .notArr
  | .node es => .node (pruneEntries es)
end

theorem pruneEntries_length (es : List TEntry) :
    (pruneEntries es).length = es.length := by
  induction es with
  | nil => rfl
  | cons e rest ih =>
    match e with
    | .file n s u =>
      rw [show pruneEntries (.file n s u :: rest) = .file n s u :: pruneEntries rest from rfl]
      simp [ih]
    | .dir n sub =>
      rw [show pruneEntries (.dir n sub :: rest) = .dir n (pruneSub sub) :: pruneEntries rest
        from rfl]
      simp [ih]

theorem fetchRepoFiles_node_nil (path : String) (depth : Nat) :
    fetchRepoFiles (.node []) path depth = .ok ([], []) := by
  rw [fetchRepoFiles_node]
  by_cases h3 : depth > 3
  · rw [if_pos h3]
  · rw [if_neg h3]
    rw [show (min ([] : List TEntry).length 150) = 0 from rfl, crawlEntries_nil]

mutual
/-- A failing sub-listing is equivalent to an empty directory: pruning all
failed subtrees does not change the crawl result. -/
theorem fetchRepoFiles_prune (t : Tree) (path : String) (depth : Nat) :
    fetchRepoFiles (pruneTree t) path depth = fetchRepoFiles t path depth := by
  match t with
  | .fail m => rfl
  | .notArr => rfl
  | .node es =>
    rw [show pruneTree (.node es) = .node (pruneEntries es) from rfl]
    rw [fetchRepoFiles_node, fetchRepoFiles_node, pruneEntries_length,
      crawlEntries_prune es path depth (min es.length 150) 0]
termination_by sizeOf t
decreasing_by
  simp_wf

theorem crawlEntries_prune (es : List TEntry) (path : String) (depth total i : Nat) :
    crawlEntries (pruneEntries es) path depth total i =
      crawlEntries es path depth total i := by
  match es with
  | [] => rfl
  | .file n s u :: rest =>
    rw [show pruneEntries (.file n s u :: rest) = .file n s u :: pruneEntries rest from rfl]
    rw [crawlEntries_cons_file, crawlEntries_cons_file,
      crawlEntries_prune rest path depth total (i + 1)]
  | .dir n sub :: rest =>
    rw [show pruneEntries (.dir n sub :: rest) = .dir n (pruneSub sub) :: pruneEntries rest
      from rfl]
    rw [crawlEntries_cons_dir, crawlEntries_cons_dir,
      crawlEntries_prune rest path depth total (i + 1)]
    match sub with
    | .fail m =>
      rw [show pruneSub (.fail m) = .node [] from rfl]
      rw [fetchRepoFiles_node_nil, fetchRepoFiles_fail]
      by_cases h3 : depth + 1 > 3
      · rw [if_pos h3]
      · rw [if_neg h3, if_neg (show ¬(depth + 1 = 0) by omega)]
    | .notArr =>
      rw [show pruneSub Tree.notArr = Tree.notArr from rfl]
    | .node es' =>
      rw [show pruneSub (.node es') = pruneTree (.node es') from rfl]
      rw [fetchRepoFiles_prune (.node es') (childPath path n) (depth + 1)]
termination_by sizeOf es
decreasing_by
  all_goals simp_wf
  all_goals omega
end

end Readme

namespace Readme

/-! ### C3: the crawl respects depth bound and directory exclusions -/

mutual
/-- Modelled from the spec (§4.2): the files reachable from a node through
directories that are neither dot-prefixed nor in the fixed exclusion set,
recursing only while `depth < 3` — the reference reachability for C3
(no item caps, no size caps, no failure handling, so a superset of
anything the crawl may return). -/
def specAllowedFiles (t : Tree) (path : String) (depth : Nat) : List FileRec :=
  match t with
  | .node entries => specAllowedEntries entries path depth
  | _ => []
termination_by sizeOf t
decreasing_by
  simp_wf

def specAllowedEntries (es : List TEntry) (path : String) (depth : Nat) : List FileRec :=
  match es with
  | [] => []
  | .file n s u :: rest => ⟨n, childPath path n, s, u⟩ :: specAllowedEntries rest path depth
  | .dir n sub :: rest =>
    (if depth < 3 && !(".".data.isPrefixOf n.data) && !(excludedDirNames.contains n) then
      specAllowedFiles sub (childPath path n) (depth + 1)
    else []) ++ specAllowedEntries rest path depth
termination_by sizeOf es
decreasing_by
  all_goals simp_wf
  all_goals omega
end

theorem specAllowedFiles_node (entries : List TEntry) (path : String) (depth : Nat) :
    specAllowedFiles (.node entries) path depth = specAllowedEntries entries path depth := by
  conv_lhs => unfold specAllowedFiles

theorem specAllowedEntries_nil (path : String) (depth : Nat) :
    specAllowedEntries [] path depth = [] := by
  unfold specAllowedEntries
  rfl

theorem specAllowedEntries_cons_file (n : String) (s : Nat) (u : Option String)
    (rest : List TEntry) (path : String) (depth : Nat) :
    specAllowedEntries (.file n s u :: rest) path depth =
      ⟨n, childPath path n, s, u⟩ :: specAllowedEntries rest path depth := by
  conv_lhs => unfold specAllowedEntries

theorem specAllowedEntries_cons_dir (n : String) (sub : Tree)
    (rest : List TEntry) (path : String) (depth : Nat) :
    specAllowedEntries (.dir n sub :: rest) path depth =
      (if depth < 3 && !(".".data.isPrefixOf n.data) && !(excludedDirNames.contains n) then
        specAllowedFiles sub (childPath path n) (depth + 1)
      else []) ++ specAllowedEntries rest path depth := by
  conv_lhs => unfold specAllowedEntries

mutual
theorem fetchRepoFiles_subset (t : Tree) (path : String) (depth : Nat)
    (fs : List FileRec) (evs : List Nat)
    (h : fetchRepoFiles t path depth = .ok (fs, evs)) :
    ∀ f ∈ fs, f ∈ specAllowedFiles t path depth := by
  match t with
  | .fail msg =>
    rw [fetchRepoFiles_fail] at h
    by_cases h3 : depth > 3
    · rw [if_pos h3] at h
      intro f hf
      rw [← (ok_pair_inj h).1] at hf
      exact absurd hf (by simp)
    · by_cases h0 : depth = 0
      · rw [if_neg h3, if_pos h0] at h
        exact absurd h (by simp)
      · rw [if_neg h3, if_neg h0] at h
        intro f hf
        rw [← (ok_pair_inj h).1] at hf
        exact absurd hf (by simp)
  | .notArr =>
    rw [fetchRepoFiles_notArr] at h
    intro f hf
    rw [← (ok_pair_inj h).1] at hf
    exact absurd hf (by simp)
  | .node entries =>
    rw [fetchRepoFiles_node] at h
    by_cases h3 : depth > 3
    · rw [if_pos h3] at h
      intro f hf
      rw [← (ok_pair_inj h).1] at hf
      exact absurd hf (by simp)
    · rw [if_neg h3] at h
      rcases hcr : crawlEntries entries path depth (min entries.length 150) 0
        with er | ⟨fs₀, evs₀⟩
      · rw [hcr] at h
        replace h : (if depth = 0 then (Except.error er : Except String (List FileRec × List Nat))
            else Except.ok ([], [])) = Except.ok (fs, evs) := h
        by_cases h0 : depth = 0
        · rw [if_pos h0] at h
          exact absurd h (by simp)
        · rw [if_neg h0] at h
          intro f hf
          rw [← (ok_pair_inj h).1] at hf
          exact absurd hf (by simp)
      · rw [hcr] at h
        have hinj := ok_pair_inj h
        intro f hf
        rw [specAllowedFiles_node]
        exact crawlEntries_subset entries path depth (min entries.length 150) 0 fs₀ evs₀
          hcr f (hinj.1 ▸ hf)
termination_by sizeOf t
decreasing_by
  simp_wf

theorem crawlEntries_subset (es : List TEntry) (path : String) (depth total i : Nat)
    (fs : List FileRec) (evs : List Nat)
    (h : crawlEntries es path depth total i = .ok (fs, evs)) :
    ∀ f ∈ fs, f ∈ specAllowedEntries es path depth := by
  match es with
  | [] =>
    rw [crawlEntries_nil] at h
    intro f hf
    rw [← (ok_pair_inj h).1] at hf
    exact absurd hf (by simp)
  | .file name size url :: rest =>
    rw [crawlEntries_cons_file] at h
    rw [specAllowedEntries_cons_file]
    by_cases hi : i < total
    · rw [if_pos hi] at h
      rcases hcr : crawlEntries rest path depth total (i + 1) with er | ⟨fs', evs'⟩
      · rw [hcr] at h
        by_cases hs : size < 2 * 1024 * 1024 <;>
          [rw [if_pos hs] at h; rw [if_neg hs] at h] <;> exact absurd h (by simp)
      · rw [hcr] at h
        have ih := crawlEntries_subset rest path depth total (i + 1) fs' evs' hcr
        by_cases hs : size < 2 * 1024 * 1024
        · rw [if_pos hs] at h
          intro f hf
          rw [← (ok_pair_inj h).1] at hf
          rcases List.mem_cons.mp hf with rfl | hf2
          · exact List.mem_cons_self _ _
          · exact List.mem_cons_of_mem _ (ih f hf2)
        · rw [if_neg hs] at h
          intro f hf
          rw [← (ok_pair_inj h).1] at hf
          exact List.mem_cons_of_mem _ (ih f hf)
    · rw [if_neg hi] at h
      intro f hf
      rw [← (ok_pair_inj h).1] at hf
      exact absurd hf (by simp)
  | .dir name sub :: rest =>
    rw [crawlEntries_cons_dir] at h
    rw [specAllowedEntries_cons_dir]
    by_cases hi : i < total
    · rw [if_pos hi] at h
      by_cases hc : (depth < 3 && !(".".data.isPrefixOf name.data) &&
          !(excludedDirNames.contains name)) = true
      · rw [if_pos hc] at h
        rcases hf : fetchRepoFiles sub (childPath path name) (depth + 1) with er | ⟨sf, se⟩
        · rw [hf] at h
          exact absurd h (by simp)
        · rw [hf] at h
          rcases hcr : crawlEntries rest path depth total (i + 1) with er | ⟨fs', evs'⟩
          · rw [hcr] at h
            exact absurd h (by simp)
          · rw [hcr] at h
            have ihsub := fetchRepoFiles_subset sub (childPath path name) (depth + 1)
              sf se hf
            have ih := crawlEntries_subset rest path depth total (i + 1) fs' evs' hcr
            intro f hfm
            rw [← (ok_pair_inj h).1] at hfm
            rw [if_pos hc]
            rcases List.mem_append.mp hfm with h1 | h2
            · exact List.mem_append_left _ (ihsub f h1)
            · exact List.mem_append_right _ (ih f h2)
      · rw [if_neg hc] at h
        rcases hcr : crawlEntries rest path depth total (i + 1) with er | ⟨fs', evs'⟩
        · rw [hcr] at h
          exact absurd h (by simp)
        · rw [hcr] at h
          have ih := crawlEntries_subset rest path depth total (i + 1) fs' evs' hcr
          intro f hfm
          rw [← (ok_pair_inj h).1] at hfm
          exact List.mem_append_right _ (ih f hfm)
    · rw [if_neg hi] at h
      intro f hf
      rw [← (ok_pair_inj h).1] at hf
      exact absurd hf (by simp)
termination_by sizeOf es
decreasing_by
  all_goals simp_wf
  all_goals omega
end

end Readme

namespace Readme

/-- **C3**: every file returned by a root crawl is reachable through
directories that are neither dot-prefixed nor in the fixed exclusion set
(`node_modules`, `vendor`, `dist`, `build`, `__pycache__`, `.git`),
recursing only while depth < 3 — the crawl never recurses into a
directory at depth ≥ 3 and never returns an entry from an excluded
directory. -/
theorem fetchRepoFiles_respects_exclusions :
    ∀ (t : Tree) (files : List FileRec) (evs : List Nat),
      fetchRepoFiles t "" 0 = .ok (files, evs) →
      ∀ f ∈ files, f ∈ specAllowedFiles t "" 0 :=
  fun t files evs h => fetchRepoFiles_subset t "" 0 files evs h

/-- A fixture with an allowed file next to an excluded `node_modules`
directory. -/
def demoTree : Tree :=
  .node [.file "a.js" 10 none, .dir "node_modules" (.node [.file "evil.js" 5 none])]

theorem demoTree_eval :
    fetchRepoFiles demoTree "" 0 = .ok ([⟨"a.js", "a.js", 10, none⟩], [0, 10]) := by
  have h2 : crawlEntries [.dir "node_modules" (.node [.file "evil.js" 5 none])] "" 0 2 1 =
      .ok ([], [pct20 1 2]) := by
    rw [crawlEntries_cons_dir, if_pos (by decide),
      if_neg (show ¬((0 < 3 && !(".".data.isPrefixOf "node_modules".data) &&
        !(excludedDirNames.contains "node_modules")) = true) from by decide),
      crawlEntries_nil]
    rfl
  have h1 : crawlEntries [.file "a.js" 10 none,
      .dir "node_modules" (.node [.file "evil.js" 5 none])] "" 0 2 0 =
      .ok ([⟨"a.js", "a.js", 10, none⟩], [pct20 0 2, pct20 1 2]) := by
    rw [crawlEntries_cons_file, if_pos (by decide), if_pos (by decide), h2]
    rfl
  show fetchRepoFiles (.node [.file "a.js" 10 none,
    .dir "node_modules" (.node [.file "evil.js" 5 none])]) "" 0 = _
  rw [fetchRepoFiles_node, if_neg (by decide),
    show min (List.length [TEntry.file "a.js" 10 none,
      .dir "node_modules" (.node [.file "evil.js" 5 none])]) 150 = 2 from rfl, h1]
  rw [show pct20 0 2 = 0 from by decide, show pct20 1 2 = 10 from by decide]

/-- Witness for C3: the crawl of the fixture returns only the allowed file,
and that file is in the spec-side reachable set. -/
theorem fetchRepoFiles_respects_exclusions_witness :
    fetchRepoFiles demoTree "" 0 = .ok ([⟨"a.js", "a.js", 10, none⟩], [0, 10]) ∧
    (⟨"a.js", "a.js", 10, none⟩ : FileRec) ∈ [(⟨"a.js", "a.js", 10, none⟩ : FileRec)] ∧
    (⟨"a.js", "a.js", 10, none⟩ : FileRec) ∈ specAllowedFiles demoTree "" 0 :=
  ⟨demoTree_eval, List.mem_cons_self _ _,
    fetchRepoFiles_respects_exclusions demoTree [⟨"a.js", "a.js", 10, none⟩] [0, 10]
      demoTree_eval ⟨"a.js", "a.js", 10, none⟩ (List.mem_cons_self _ _)⟩

/-- **C4**: a root listing failure propagates out of the crawl; a failing
listing at any depth > 0 is swallowed as an empty subtree; below the root
the crawl never fails; and pruning every failing subtree to an empty
directory leaves the crawl result unchanged, so the files gathered from
accessible subtrees are still returned. -/
theorem fetchRepoFiles_error_policy :
    (∀ msg path, fetchRepoFiles (.fail msg) path 0 = .error msg) ∧
    (∀ msg path depth, 0 < depth → fetchRepoFiles (.fail msg) path depth = .ok ([], [])) ∧
    (∀ t path depth, 0 < depth → ∃ r, fetchRepoFiles t path depth = .ok r) ∧
    (∀ t path depth, fetchRepoFiles (pruneTree t) path depth =
      fetchRepoFiles t path depth) := by
  refine ⟨?_, ?_, fetchRepoFiles_total, fetchRepoFiles_prune⟩
  · intro msg path
    rw [fetchRepoFiles_fail]
    simp
  · intro msg path depth hd
    rw [fetchRepoFiles_fail]
    by_cases h3 : depth > 3
    · rw [if_pos h3]
    · rw [if_neg h3, if_neg (by omega)]

/-- Witness for C4 at concrete inputs, including a tree whose failing
subtree sits next to an accessible file. -/
theorem fetchRepoFiles_error_policy_witness :
    fetchRepoFiles (.fail "HTTP 404") "" 0 = .error "HTTP 404" ∧
    (0 < 1 ∧ fetchRepoFiles (.fail "HTTP 404") "src" 1 = .ok ([], [])) ∧
    (0 < 1 ∧ ∃ r, fetchRepoFiles (.node [.dir "src" (.fail "HTTP 500")]) "x" 1 = .ok r) ∧
    fetchRepoFiles (pruneTree (.node [.dir "src" (.fail "HTTP 500"),
        .file "a.js" 10 none])) "" 0 =
      fetchRepoFiles (.node [.dir "src" (.fail "HTTP 500"), .file "a.js" 10 none]) "" 0 :=
  ⟨fetchRepoFiles_error_policy.1 "HTTP 404" "",
   ⟨by omega, fetchRepoFiles_error_policy.2.1 "HTTP 404" "src" 1 (by omega)⟩,
   ⟨by omega, fetchRepoFiles_error_policy.2.2.1 _ "x" 1 (by omega)⟩,
   fetchRepoFiles_error_policy.2.2.2 _ "" 0⟩

end Readme

namespace Readme

/-! ### C2: progress events of one generation run -/

theorem pct20_mono (i total : Nat) : pct20 i total ≤ pct20 (i + 1) total :=
  Nat.div_le_div_right (by omega)

theorem pct20_le_20 {i total : Nat} (h : i < total) : pct20 i total ≤ 20 := by
  have h2 : 0 < 2 * total := by omega
  have h3 : 40 * i + total < 21 * (2 * total) := by omega
  have := (Nat.div_lt_iff_lt_mul h2).mpr h3
  unfold pct20
  omega

theorem crawlEntries_events_chain (es : List TEntry) (path : String) (total : Nat) :
    ∀ (i : Nat) (fs : List FileRec) (evs : List Nat),
      crawlEntries es path 0 total i = .ok (fs, evs) →
      List.Chain' (· ≤ ·) evs ∧ ∀ p ∈ evs, pct20 i total ≤ p ∧ p ≤ 20 := by
  induction es with
  | nil =>
    intro i fs evs h
    rw [crawlEntries_nil] at h
    rw [← (ok_pair_inj h).2]
    exact ⟨List.chain'_nil, by simp⟩
  | cons e rest ih =>
    intro i fs evs h
    have step : ∀ evs' : List Nat, i < total →
        (List.Chain' (· ≤ ·) evs' ∧ ∀ p ∈ evs', pct20 (i + 1) total ≤ p ∧ p ≤ 20) →
        List.Chain' (· ≤ ·) (pct20 i total :: evs') ∧
          ∀ p ∈ pct20 i total :: evs', pct20 i total ≤ p ∧ p ≤ 20 := by
      intro evs' hi ⟨hc, hb⟩
      constructor
      · rw [List.chain'_cons']
        refine ⟨?_, hc⟩
        intro y hy
        have hym := List.mem_of_mem_head? hy
        exact le_trans (pct20_mono i total) (hb y hym).1
      · intro p hp
        rcases List.mem_cons.mp hp with rfl | hp2
        · exact ⟨le_refl _, pct20_le_20 hi⟩
        · exact ⟨le_trans (pct20_mono i total) (hb p hp2).1, (hb p hp2).2⟩
    match e with
    | .file name size url =>
      rw [crawlEntries_cons_file] at h
      by_cases hi : i < total
      · rw [if_pos hi] at h
        rcases hcr : crawlEntries rest path 0 total (i + 1) with er | ⟨fs', evs'⟩
        · rw [hcr] at h
          by_cases hs : size < 2 * 1024 * 1024 <;>
            [rw [if_pos hs] at h; rw [if_neg hs] at h] <;> exact absurd h (by simp)
        · rw [hcr] at h
          have ihr := ih (i + 1) fs' evs' hcr
          by_cases hs : size < 2 * 1024 * 1024
          · rw [if_pos hs] at h
            rw [← (ok_pair_inj h).2, if_pos rfl, List.singleton_append]
            exact step evs' hi ihr
          · rw [if_neg hs] at h
            rw [← (ok_pair_inj h).2, if_pos rfl, List.singleton_append]
            exact step evs' hi ihr
      · rw [if_neg hi] at h
        rw [← (ok_pair_inj h).2]
        exact ⟨List.chain'_nil, by simp⟩
    | .dir name sub =>
      rw [crawlEntries_cons_dir] at h
      by_cases hi : i < total
      · rw [if_pos hi] at h
        by_cases hc : (0 < 3 && !(".".data.isPrefixOf name.data) &&
            !(excludedDirNames.contains name)) = true
        · rw [if_pos hc] at h
          rcases hf : fetchRepoFiles sub (childPath path name) 1 with er | ⟨sf, se⟩
          · rw [hf] at h
            exact absurd h (by simp)
          · rw [hf] at h
            rcases hcr : crawlEntries rest path 0 total (i + 1) with er | ⟨fs', evs'⟩
            · rw [hcr] at h
              exact absurd h (by simp)
            · rw [hcr] at h
              have hse : se = [] :=
                fetchRepoFiles_events_nil sub (childPath path name) 1 (by omega) sf se hf
              have ihr := ih (i + 1) fs' evs' hcr
              rw [← (ok_pair_inj h).2, if_pos rfl, hse]
              simp only [List.nil_append, List.singleton_append]
              exact step evs' hi ihr
        · rw [if_neg hc] at h
          rcases hcr : crawlEntries rest path 0 total (i + 1) with er | ⟨fs', evs'⟩
          · rw [hcr] at h
            exact absurd h (by simp)
          · rw [hcr] at h
            have ihr := ih (i + 1) fs' evs' hcr
            rw [← (ok_pair_inj h).2, if_pos rfl, List.singleton_append]
            exact step evs' hi ihr
      · rw [if_neg hi] at h
        rw [← (ok_pair_inj h).2]
        exact ⟨List.chain'_nil, by simp⟩

/-- At the root, the emitted scan percentages are non-decreasing and at
most 20. -/
theorem fetchRepoFiles_root_events (t : Tree) (path : String)
    (fs : List FileRec) (evs : List Nat)
    (h : fetchRepoFiles t path 0 = .ok (fs, evs)) :
    List.Chain' (· ≤ ·) evs ∧ ∀ p ∈ evs, p ≤ 20 := by
  match t with
  | .fail msg =>
    rw [fetchRepoFiles_fail] at h
    rw [if_neg (by omega), if_pos rfl] at h
    exact absurd h (by simp)
  | .notArr =>
    rw [fetchRepoFiles_notArr] at h
    rw [← (ok_pair_inj h).2]
    exact ⟨List.chain'_nil, by simp⟩
  | .node entries =>
    rw [fetchRepoFiles_node, if_neg (by omega)] at h
    rcases hcr : crawlEntries entries path 0 (min entries.length 150) 0 with er | ⟨fs₀, evs₀⟩
    · rw [hcr] at h
      replace h : (if (0 : Nat) = 0 then (Except.error er : Except String (List FileRec × List Nat))
          else Except.ok ([], [])) = Except.ok (fs, evs) := h
      rw [if_pos rfl] at h
      exact absurd h (by simp)
    · rw [hcr] at h
      have := crawlEntries_events_chain entries path (min entries.length 150) 0 fs₀ evs₀ hcr
      rw [← (ok_pair_inj h).2]
      exact ⟨this.1, fun p hp => (this.2 p hp).2⟩

end Readme

namespace Readme

/-- `Math.round((processedFiles / importantFiles.length) * 35)` in
`performDeepCodeAnalysis`, as round-half-up on rationals. -/
def pct35 (k m : Nat) : Nat := (70 * k + m) / (2 * m)

theorem pct35_mono (k m : Nat) : pct35 k m ≤ pct35 (k + 1) m :=
  Nat.div_le_div_right (by omega)

theorem pct35_le_35 {k m : Nat} (h : k < m) : pct35 k m ≤ 35 := by
  have h2 : 0 < 2 * m := by omega
  have h3 : 70 * k + m < 36 * (2 * m) := by omega
  have := (Nat.div_lt_iff_lt_mul h2).mpr h3
  unfold pct35
  omega

/-- The progress percentages emitted by `performDeepCodeAnalysis` for `m`
important files: the leading `analyzing 25` event, then one event per
file with `processedFiles = k`; content fetching and the per-file
analysis emit nothing. -/
def deepAnalysisEvents (m : Nat) : List Nat :=
  25 :: (List.range m).map (fun k => 25 + pct35 k m)

theorem deepAnalysisEvents_mem {m p : Nat} (hp : p ∈ deepAnalysisEvents m) :
    25 ≤ p ∧ p ≤ 60 := by
  rcases List.mem_cons.mp hp with rfl | h2
  · exact ⟨le_refl _, by omega⟩
  · rcases List.mem_map.mp h2 with ⟨k, hk, rfl⟩
    have := pct35_le_35 (List.mem_range.mp hk)
    omega

theorem deepAnalysisEvents_chain (m : Nat) :
    List.Chain' (· ≤ ·) (deepAnalysisEvents m) := by
  unfold deepAnalysisEvents
  rw [List.chain'_cons']
  constructor
  · intro y hy
    rcases List.mem_map.mp (List.mem_of_mem_head? hy) with ⟨k, _, rfl⟩
    omega
  · rw [List.chain'_map]
    cases m with
    | zero => simp
    | succ n =>
      rw [List.chain'_range_succ]
      intro k _
      have := pct35_mono k (n + 1)
      simp only [Nat.succ_eq_add_one] at *
      omega

/-- Outcome of the generative-text call in a run. -/
inductive GenOutcome where
  | noKey
  | genFail
  | genOk
  deriving DecidableEq, Repr

/-- Events of `generateIntelligentReadme` plus the route tail: no API key
throws before emitting; a provider failure throws after `70, 85`; on
success the route emits the final `complete 100`.  Error paths end with
the `error 0` event of the route-level catch block. -/
def genTailEvents : GenOutcome → List Nat
  | .noKey => [0]
  | .genFail => [70, 85, 0]
  | .genOk => [70, 85, 100]

/-- The tail of the run after the access check: crawl failure, empty
repository, or the full analysis pipeline. -/
def runEventsFetch : Except String (List FileRec × List Nat) → GenOutcome → List Nat
  | .error _, _ => [5, 10, 0]
  | .ok (files, scanEvs), gen =>
    if files.isEmpty then [5, 10] ++ scanEvs ++ [0]
    else
      [5, 10] ++ scanEvs ++ [25] ++
        deepAnalysisEvents (selectImportantFiles files).length ++ [60, 70] ++
        genTailEvents gen

/-- The percent values emitted to the progress sink by one
`/generate-readme` run, as a function of the access-check outcome, the
synthetic repository tree and the generation outcome. -/
def runEvents (accessOk : Bool) (t : Tree) (gen : GenOutcome) : List Nat :=
  if accessOk = false then [5, 0]
  else runEventsFetch (fetchRepoFiles t "" 0) gen

theorem genTailEvents_le (gen : GenOutcome) : ∀ p ∈ genTailEvents gen, p ≤ 100 := by
  intro p hp
  cases gen <;> simp [genTailEvents] at hp <;> omega

/-- **C2 (amended)**: every emitted percent lies within 0–100, and in a
successful run the percent sequence is non-decreasing from the third
event on; the full sequence is not monotone because the root-scan events
restart below the preceding `fetching: 10` header (see the
counterexample), and error runs terminate with an `error 0` event. -/
theorem runEvents_amended :
    ∀ (accessOk : Bool) (t : Tree) (gen : GenOutcome),
      (∀ p ∈ runEvents accessOk t gen, p ≤ 100) ∧
      (∀ files scanEvs, accessOk = true → gen = GenOutcome.genOk →
        fetchRepoFiles t "" 0 = .ok (files, scanEvs) → files ≠ [] →
        List.Chain' (· ≤ ·) ((runEvents accessOk t gen).drop 2)) := by
  intro accessOk t gen
  constructor
  · by_cases ha : accessOk = false
    · have hre : runEvents accessOk t gen = [5, 0] := by
        unfold runEvents
        rw [if_pos ha]
      rw [hre]
      intro p hp
      simp at hp
      omega
    · rcases hf : fetchRepoFiles t "" 0 with er | ⟨files, scanEvs⟩
      · have hre : runEvents accessOk t gen = [5, 10, 0] := by
          unfold runEvents
          rw [if_neg ha, hf]
          rfl
        rw [hre]
        intro p hp
        simp at hp
        omega
      · have hscan := fetchRepoFiles_root_events t "" files scanEvs hf
        by_cases hemp : files.isEmpty = true
        · have hre : runEvents accessOk t gen = [5, 10] ++ scanEvs ++ [0] := by
            unfold runEvents
            rw [if_neg ha, hf,
              show runEventsFetch (.ok (files, scanEvs)) gen =
                (if files.isEmpty = true then [5, 10] ++ scanEvs ++ [0]
                 else [5, 10] ++ scanEvs ++ [25] ++
                   deepAnalysisEvents (selectImportantFiles files).length ++ [60, 70] ++
                   genTailEvents gen) from rfl,
              if_pos hemp]
          rw [hre]
          intro p hp
          simp only [List.mem_append, List.mem_cons, List.not_mem_nil, or_false] at hp
          rcases hp with ((rfl | rfl) | hs) | rfl
          · omega
          · omega
          · exact le_trans (hscan.2 p hs) (by omega)
          · omega
        · have hre : runEvents accessOk t gen = [5, 10] ++ scanEvs ++ [25] ++
              deepAnalysisEvents (selectImportantFiles files).length ++ [60, 70] ++
              genTailEvents gen := by
            unfold runEvents
            rw [if_neg ha, hf,
              show runEventsFetch (.ok (files, scanEvs)) gen =
                (if files.isEmpty = true then [5, 10] ++ scanEvs ++ [0]
                 else [5, 10] ++ scanEvs ++ [25] ++
                   deepAnalysisEvents (selectImportantFiles files).length ++ [60, 70] ++
                   genTailEvents gen) from rfl,
              if_neg hemp]
          rw [hre]
          intro p hp
          simp only [List.mem_append, List.mem_cons, List.not_mem_nil, or_false] at hp
          rcases hp with (((((rfl | rfl) | hs) | rfl) | hd) | rfl | rfl) | ht
          · omega
          · omega
          · exact le_trans (hscan.2 p hs) (by omega)
          · omega
          · exact le_trans (deepAnalysisEvents_mem hd).2 (by omega)
          · omega
          · omega
          · exact genTailEvents_le gen p ht
  · intro files scanEvs ha hg hf hne
    subst ha
    subst hg
    have hre : runEvents true t .genOk = [5, 10] ++ scanEvs ++ [25] ++
        deepAnalysisEvents (selectImportantFiles files).length ++ [60, 70] ++
        [70, 85, 100] := by
      unfold runEvents
      rw [if_neg (by decide), hf,
        show runEventsFetch (.ok (files, scanEvs)) .genOk =
          (if files.isEmpty = true then [5, 10] ++ scanEvs ++ [0]
           else [5, 10] ++ scanEvs ++ [25] ++
             deepAnalysisEvents (selectImportantFiles files).length ++ [60, 70] ++
             genTailEvents .genOk) from rfl,
        if_neg (by simp [List.isEmpty_iff, hne])]
      rfl
    rw [hre]
    simp only [List.cons_append, List.nil_append]
    rw [show ∀ Z : List Nat, ((5 : Nat) :: 10 :: Z).drop 2 = Z from fun Z => rfl]
    rw [List.append_assoc, List.append_assoc, List.append_assoc]
    simp only [List.cons_append, List.nil_append]
    apply List.chain'_append.mpr
    refine ⟨(fetchRepoFiles_root_events t "" files scanEvs hf).1, ?_, ?_⟩
    · rw [List.chain'_cons']
      constructor
      · intro y hy
        rcases List.mem_append.mp (List.mem_of_mem_head? hy) with h1 | h2
        · exact (deepAnalysisEvents_mem h1).1
        · simp only [List.mem_cons] at h2
          rcases h2 with rfl | rfl | rfl | rfl | rfl | h <;> first | omega | exact absurd h (by simp)
      · apply List.chain'_append.mpr
        refine ⟨deepAnalysisEvents_chain _, by norm_num [List.chain'_cons], ?_⟩
        intro x hx y hy
        have hxb := (deepAnalysisEvents_mem (List.mem_of_mem_getLast? hx)).2
        simp only [List.head?_cons, Option.mem_some_iff] at hy
        omega
    · intro x hx y hy
      have hxb := (fetchRepoFiles_root_events t "" files scanEvs hf).2 x
        (List.mem_of_mem_getLast? hx)
      simp only [List.head?_cons, Option.mem_some_iff] at hy
      omega

end Readme

namespace Readme

/-- Evaluation of the event stream on the two-entry demo tree: the root
scan restarts at 0 right after the `fetching: 10` header. -/
theorem demoRunEvents_eval :
    runEvents true demoTree GenOutcome.genOk =
      [5, 10, 0, 10, 25, 25, 25, 60, 70, 70, 85, 100] := by
  have hm : (selectImportantFiles [(⟨"a.js", "a.js", 10, none⟩ : FileRec)]).length = 1 := by
    unfold selectImportantFiles
    rw [List.length_take, List.length_mergeSort, List.length_map]
    rfl
  unfold runEvents
  rw [if_neg (by decide), demoTree_eval,
    show runEventsFetch (.ok ([⟨"a.js", "a.js", 10, none⟩], [0, 10])) .genOk =
      (if ([(⟨"a.js", "a.js", 10, none⟩ : FileRec)]).isEmpty = true then
         [5, 10] ++ [0, 10] ++ [0]
       else [5, 10] ++ [0, 10] ++ [25] ++
         deepAnalysisEvents
           (selectImportantFiles [(⟨"a.js", "a.js", 10, none⟩ : FileRec)]).length ++
         [60, 70] ++ genTailEvents .genOk) from rfl,
    if_neg (by decide), hm]
  rfl

/-- **C2 counterexample**: on a successful run over the demo repository
the emitted percent sequence is `[5, 10, 0, 10, 25, 25, 25, 60, 70, 70,
85, 100]`, which is not monotonically non-decreasing: after the route
emits `fetching: 10`, `fetchRepoFiles` restarts the root scan at
`Math.round(0/total*20) = 0`. -/
theorem runEvents_c2_counterexample :
    ¬ List.Chain' (· ≤ ·) (runEvents true demoTree GenOutcome.genOk) := by
  rw [demoRunEvents_eval]
  intro h
  rw [List.chain'_cons, List.chain'_cons] at h
  exact absurd h.2.1 (by omega)

/-- Witness for the amended C2 theorem at the demo tree. -/
theorem runEvents_amended_witness :
    5 ∈ runEvents true demoTree GenOutcome.genOk ∧ (5 : Nat) ≤ 100 ∧
    List.Chain' (· ≤ ·) ((runEvents true demoTree GenOutcome.genOk).drop 2) :=
  ⟨by rw [demoRunEvents_eval]; exact List.mem_cons_self 5 _,
   (runEvents_amended true demoTree GenOutcome.genOk).1 5
     (by rw [demoRunEvents_eval]; exact List.mem_cons_self 5 _),
   (runEvents_amended true demoTree GenOutcome.genOk).2
     [⟨"a.js", "a.js", 10, none⟩] [0, 10] rfl rfl demoTree_eval
     (List.cons_ne_nil _ _)⟩

end Readme
